import Mathlib

/-!
# Groceries: a shopping cart with merge-by-name entries and a percentage discount

A verification development for `main.go`.  The Go program is embedded shallowly:

* Go's `int` is taken to be the 64-bit two's-complement integer of the common targets.
  Values are Lean integers and every `*`, `+` and `+=` on prices, quantities and costs is
  followed by `wrapInt`, the reduction into `[-2^63, 2^63)`.
* A slice is the list of its elements.  Index and slice expressions are bounds-checked as
  in Go; an operation that would end in a run-time panic returns `none`.  Capacity is not
  modelled: the bound used for `s[:hi]` is the length, which is never larger than the
  capacity, so an expression that is in bounds here is in bounds in Go.
* A `*Item` obtained from `&c.items[index]` is the number of the slot it points to
  (`none` is the nil pointer).
* `float32` is IEEE 754 binary32 with round-to-nearest, ties-to-even.  A finite value is
  kept exactly as sign, significand and binary exponent; each operation forms the exact
  result and rounds it to 24 significant bits.
* `fmt.Sprintf` is the standard library's, for the one verb the program uses: `%v` prints
  a string as it is, an `int` in decimal, and a slice between brackets with its elements
  separated by single spaces, each through its `String` method.
-/

namespace Groceries

/-! ## Machine integers -/

/-- Two's-complement reduction of an integer into the range of a 64-bit `int`. -/
def wrapInt (x : Int) : Int := (x + 2 ^ 63) % 2 ^ 64 - 2 ^ 63

/-- The values a 64-bit `int` can hold. -/
def InIntRange (x : Int) : Prop := -(2 ^ 63) ≤ x ∧ x < 2 ^ 63

instance (x : Int) : Decidable (InIntRange x) := by
  unfold InIntRange; exact inferInstance

/-! ## Item -/

/-- The struct `Item`: a name, the price of a single unit, and a quantity. -/
structure Item where
  name : String
  price : Int
  quantity : Int
  deriving DecidableEq, Repr

/-- The method `Item.Cost`: `i.price * i.quantity` in `int` arithmetic. -/
def Item.Cost (i : Item) : Int := wrapInt (i.price * i.quantity)

/-! ## Cart -/

/-- The struct `Cart`: the slice `items`, in insertion order. -/
structure Cart where
  items : List Item
  deriving DecidableEq, Repr

/-- The zero value `Cart{}`. -/
def Cart.empty : Cart := { items := [] }

/-- The method `Cart.Cost`: the loop `sum += item.Cost()` over `c.items`, starting at `0`. -/
def Cart.Cost (c : Cart) : Int :=
  c.items.foldl (fun sum item => wrapInt (sum + item.Cost)) 0

/-- The method `Cart.Size`: `len(c.items)`. -/
def Cart.Size (c : Cart) : Int := (c.items.length : Int)

/-- The expression `&c.items[index]`: the address of slot `index`, or a panic (`none`)
when `index` is not below `len(c.items)`. -/
def Cart.addrOf (c : Cart) (index : Nat) : Option Nat :=
  if index < c.items.length then some index else none

/-- The `range` loop of `Cart.Find`, entered with the elements not yet visited and the
index of the first of them.  The result is the returned pair (pointer, index);
the outer `none` is a panic. -/
def Cart.findLoop (c : Cart) (name : String) : List Item → Nat → Option (Option Nat × Int)
  | [], _ => some (none, -1)
  | current :: rest, index =>
    if current.name = name then
      match c.addrOf index with
      | some p => some (some p, (index : Int))
      | none => none
    else Cart.findLoop c name rest (index + 1)

/-- The method `Cart.Find`: scan `c.items` from index `0`; on the first entry whose name
is `name` return its address and index, otherwise `nil` and `-1`. -/
def Cart.Find (c : Cart) (name : String) : Option (Option Nat × Int) :=
  c.findLoop name c.items 0

/-- Dereference of a pointer returned by `Find`: the entry stored in the slot. -/
def Cart.deref (c : Cart) : Option Nat → Option Item
  | some p => c.items[p]?
  | none => none

/-- The statement `existing.quantity += n` on a stored entry. -/
def Item.addQuantity (n : Int) (e : Item) : Item :=
  { e with quantity := wrapInt (e.quantity + n) }

/-- The method `Cart.Add`: when `Find` returns a non-nil pointer, add `item.quantity` to
the quantity of the entry it points to; otherwise append `item`. -/
def Cart.Add (c : Cart) (item : Item) : Option Cart :=
  match c.Find item.name with
  | none => none
  | some (some existing, _) =>
    some { items := c.items.modify (Item.addQuantity item.quantity) existing }
  | some (none, _) => some { items := c.items ++ [item] }

/-- The slice expression `s[:hi]`; `none` is the out-of-range panic. -/
def sliceTo (s : List Item) (hi : Int) : Option (List Item) :=
  if 0 ≤ hi ∧ hi ≤ (s.length : Int) then some (s.take hi.toNat) else none

/-- The slice expression `s[lo:]`; `none` is the out-of-range panic. -/
def sliceFrom (s : List Item) (lo : Int) : Option (List Item) :=
  if 0 ≤ lo ∧ lo ≤ (s.length : Int) then some (s.drop lo.toNat) else none

/-- The method `Cart.Remove`: when the index returned by `Find` is non-negative, replace
`c.items` by `append(c.items[:index], c.items[index+1:]...)`; otherwise do nothing.
(`index + 1` is at most the length of a slice, so it does not wrap.) -/
def Cart.Remove (c : Cart) (name : String) : Option Cart :=
  match c.Find name with
  | none => none
  | some (_, index) =>
    if index ≥ 0 then
      match sliceTo c.items index, sliceFrom c.items (index + 1) with
      | some front, some back => some { items := front ++ back }
      | _, _ => none
    else some c

/-- A call on a cart: `Add(item)` or `Remove(name)`. -/
inductive Op where
  | add (item : Item)
  | remove (name : String)
  deriving DecidableEq, Repr

/-- Perform one call. -/
def Cart.step (c : Cart) : Op → Option Cart
  | .add item => c.Add item
  | .remove name => c.Remove name

/-- Perform a sequence of calls from left to right; a panic aborts the sequence. -/
def Cart.run (c : Cart) : List Op → Option Cart
  | [] => some c
  | op :: ops => (c.step op).bind (fun c' => Cart.run c' ops)

/-- The carts that a sequence of `Add` and `Remove` calls produces from `Cart{}`. -/
def Cart.Reachable (c : Cart) : Prop := ∃ ops : List Op, Cart.empty.run ops = some c

/-- No two entries share a name. -/
def Cart.UniqueNames (c : Cart) : Prop := (c.items.map Item.name).Nodup

instance (c : Cart) : Decidable c.UniqueNames := by
  unfold Cart.UniqueNames; exact inferInstance

/-! ## float32 arithmetic

Only finite values occur: the operands of `Discount.Calc` come from 64-bit integers, so a
non-zero intermediate value has magnitude between `2^-7` and `2^127`, inside the normal
range of binary32; no infinity, NaN or subnormal number can arise and the exponent is
left unbounded. -/

/-- A finite `float32` value: `(-1)^neg * man * 2^exp`. -/
structure Float32 where
  neg : Bool
  man : Nat
  exp : Int
  deriving DecidableEq, Repr

/-- Number of binary digits of `n` by repeated halving; `fuel` bounds the number of
halvings. -/
def bitLengthAux : Nat → Nat → Nat
  | 0, _ => 0
  | fuel + 1, n => if n = 0 then 0 else bitLengthAux fuel (n / 2) + 1

/-- Number of binary digits of `n` (`0` for `0`), so that
`2^(bitLength n - 1) ≤ n < 2^(bitLength n)` for positive `n`. -/
def bitLength (n : Nat) : Nat := bitLengthAux n n

/-- The quotient `n / d` rounded to the nearest integer, a tie going to the even one. -/
def roundHalfEven (n d : Nat) : Nat :=
  let q := n / d
  let r := n % d
  if 2 * r < d then q else if d < 2 * r then q + 1 else if q % 2 = 0 then q else q + 1

/-- Rounding to `float32`: the value with at most 24 significant bits nearest to
`(-1)^neg * (n / d) * 2^e`, a tie going to the even significand.  `lg` is the binary
exponent `⌊log₂ (n / d)⌋`, which is `k` or `k - 1`; the quotient is scaled by `2^(23 - lg)`
into `[2^23, 2^24)` and rounded to an integer there. -/
def Float32.round (neg : Bool) (n d : Nat) (e : Int) : Float32 :=
  if n = 0 then { neg := neg, man := 0, exp := 0 }
  else
    let k : Int := (bitLength n : Int) - (bitLength d : Int)
    let lg : Int := if d * 2 ^ k.toNat ≤ n * 2 ^ (-k).toNat then k else k - 1
    let s : Int := lg - 23
    { neg := neg, man := roundHalfEven (n * 2 ^ (-s).toNat) (d * 2 ^ s.toNat), exp := e + s }

/-- The conversion `float32(x)` of an `int`. -/
def Float32.ofInt (x : Int) : Float32 := Float32.round (decide (x < 0)) x.natAbs 1 0

/-- The quotient `a / b` of two `float32` values, for a non-zero divisor (the program
divides by the constant `100` only). -/
def Float32.div (a b : Float32) : Float32 :=
  Float32.round (xor a.neg b.neg) a.man b.man (a.exp - b.exp)

/-- The product `a * b` of two `float32` values. -/
def Float32.mul (a b : Float32) : Float32 :=
  Float32.round (xor a.neg b.neg) (a.man * b.man) 1 (a.exp + b.exp)

/-- The conversion `int(f)`: the fraction is discarded (truncation toward zero).  When the
truncated value does not fit an `int` Go leaves the result to the implementation; that
case is `none`. -/
def Float32.toInt (f : Float32) : Option Int :=
  let mag : Nat := f.man * 2 ^ f.exp.toNat / 2 ^ (-f.exp).toNat
  let v : Int := if f.neg then -(mag : Int) else (mag : Int)
  if InIntRange v then some v else none

/-! ## Costing and Discount -/

/-- The interface `Costing`: a value of one of the two types of the program that have a
method `Cost() int`. -/
inductive Costing where
  | item (i : Item)
  | cart (c : Cart)
  deriving DecidableEq, Repr

/-- The interface method `Cost`, dispatched on the dynamic type. -/
def Costing.Cost : Costing → Int
  | .item i => i.Cost
  | .cart c => c.Cost

/-- The struct `Discount`. -/
structure Discount where
  percent : Int
  deriving DecidableEq, Repr

/-- The method `Discount.Calc`:
`int((float32(d.percent) / float32(100)) * float32(costing.Cost()))`. -/
def Discount.Calc (d : Discount) (costing : Costing) : Option Int :=
  Float32.toInt
    (Float32.mul (Float32.div (Float32.ofInt d.percent) (Float32.ofInt 100))
      (Float32.ofInt costing.Cost))

/-! ## Formatting

The part of the standard library's `fmt.Sprintf` that the program uses: the verb `%v` on a
string, on an `int`, and on a slice whose elements have a `String` method. -/

/-- The verb `%v` on an `int`: the decimal digits, after a minus sign when negative. -/
def formatInt (n : Int) : String :=
  if n < 0 then "-" ++ Nat.repr n.natAbs else Nat.repr n.natAbs

/-- An operand of `Sprintf`.  A value with a `String` method is given by what that method
returns, since `%v` prints exactly that. -/
inductive FmtArg where
  | str (s : String)
  | int (n : Int)
  | stringers (elems : List String)

/-- The loop of `fmt` over the elements of a slice: a space before every element but the
first (`first` tells whether none has been written yet). -/
def formatElems : Bool → List String → String
  | _, [] => ""
  | true, e :: rest => e ++ formatElems false rest
  | false, e :: rest => " " ++ e ++ formatElems false rest

/-- The verb `%v` on an operand; a slice is written between brackets. -/
def FmtArg.format : FmtArg → String
  | .str s => s
  | .int n => formatInt n
  | .stringers elems => "[" ++ formatElems true elems ++ "]"

/-- The scan of the format: `%v` is replaced by the next operand (by `%!v(MISSING)` when
there is none left), every other character is copied. -/
def sprintfLoop : List Char → List FmtArg → String
  | [], _ => ""
  | '%' :: 'v' :: rest, [] => "%!v(MISSING)" ++ sprintfLoop rest []
  | '%' :: 'v' :: rest, a :: args => a.format ++ sprintfLoop rest args
  | ch :: rest, args => String.singleton ch ++ sprintfLoop rest args

/-- The function `fmt.Sprintf`, for formats whose only verb is `%v` and with as many
operands as verbs, as in the program. -/
def Sprintf (format : String) (args : List FmtArg) : String :=
  sprintfLoop format.data args

/-- The method `Item.String` (in lower case here, `String` being Lean's type of strings):
`fmt.Sprintf("%v %v x %v$", i.name, i.quantity, i.price)`. -/
def Item.string (i : Item) : String :=
  Sprintf "%v %v x %v$" [.str i.name, .int i.quantity, .int i.price]

/-- The method `Cart.String` (in lower case here): `fmt.Sprintf("%v", c.items)`; the
elements of `c.items` are printed through `Item.String`. -/
def Cart.string (c : Cart) : String :=
  Sprintf "%v" [.stringers (c.items.map Item.string)]

/-! ## The set of live names -/

/-- The effect of one call on the set of names, in the words of the specification:
`Add(X)` inserts `X.name`, `Remove(n)` deletes `n`. -/
def namesStep (s : Finset String) : Op → Finset String
  | .add item => insert item.name s
  | .remove name => s.erase name

/-- The set of names added and not subsequently removed by a sequence of calls. -/
def liveNames (ops : List Op) : Finset String := ops.foldl namesStep ∅

/-! ## Auxiliary facts -/

theorem wrapInt_of_inRange {x : Int} (h : InIntRange x) : wrapInt x = x := by
  unfold InIntRange at h
  unfold wrapInt
  omega

theorem wrapInt_inRange (x : Int) : InIntRange (wrapInt x) := by
  unfold InIntRange wrapInt
  omega

theorem wrapInt_add_left (a b : Int) : wrapInt (wrapInt a + b) = wrapInt (a + b) := by
  unfold wrapInt
  omega

/-- The loop of `Find`, entered at `index` with the unvisited entries `rest`, returns the
slot of the first entry of `rest` named `name`, or `nil` and `-1`; it never panics. -/
theorem findLoop_eq (c : Cart) (name : String) :
    ∀ (rest : List Item) (index : Nat), index + rest.length = c.items.length →
      c.findLoop name rest index =
        if rest.findIdx (fun e => decide (e.name = name)) < rest.length then
          some (some (index + rest.findIdx (fun e => decide (e.name = name))),
            ((index + rest.findIdx (fun e => decide (e.name = name)) : Nat) : Int))
        else some (none, -1) := by
  intro rest
  induction rest with
  | nil => intro index _; simp [Cart.findLoop]
  | cons current rest ih =>
    intro index h
    simp only [List.length_cons] at h
    by_cases hn : current.name = name
    · have hlt : index < c.items.length := by omega
      simp [Cart.findLoop, Cart.addrOf, hn, hlt, List.findIdx_cons]
    · have := ih (index + 1) (by omega)
      simp only [Cart.findLoop, hn, if_false, this, List.findIdx_cons, decide_False, cond_false,
        List.length_cons, Nat.add_lt_add_iff_right]
      split
      · simp; omega
      · rfl

theorem Find_eq (c : Cart) (name : String) :
    c.Find name =
      if c.items.findIdx (fun e => decide (e.name = name)) < c.items.length then
        some (some (c.items.findIdx (fun e => decide (e.name = name))),
          ((c.items.findIdx (fun e => decide (e.name = name)) : Nat) : Int))
      else some (none, -1) := by
  have := findLoop_eq c name c.items 0 (by simp)
  simpa [Cart.Find] using this


theorem Find_of_mem {c : Cart} {name : String} (h : ∃ e ∈ c.items, e.name = name) :
    ∃ i : Nat, i < c.items.length ∧ c.Find name = some (some i, (i : Int)) ∧
      (∃ e, c.items[i]? = some e ∧ e.name = name) ∧
      ∀ j : Nat, j < i → ∀ e', c.items[j]? = some e' → e'.name ≠ name := by
  have hlt : c.items.findIdx (fun e => decide (e.name = name)) < c.items.length := by
    rw [List.findIdx_lt_length]
    obtain ⟨e, he, hn⟩ := h
    exact ⟨e, he, by simpa using hn⟩
  refine ⟨_, hlt, ?_, ?_, ?_⟩
  · rw [Find_eq, if_pos hlt]
  · refine ⟨c.items[c.items.findIdx (fun e => decide (e.name = name))], ?_, ?_⟩
    · exact List.getElem?_eq_getElem hlt
    · have := @List.findIdx_getElem _ (fun e => decide (e.name = name)) c.items hlt
      simpa using this
  · intro j hj e' he'
    have hjl : j < c.items.length := lt_trans hj hlt
    have := List.not_of_lt_findIdx hj
    rw [List.getElem?_eq_getElem hjl] at he'
    cases he'
    simpa using this

theorem Find_of_not_mem {c : Cart} {name : String} (h : ∀ e ∈ c.items, e.name ≠ name) :
    c.Find name = some (none, -1) := by
  have hnot : ¬ c.items.findIdx (fun e => decide (e.name = name)) < c.items.length := by
    rw [List.findIdx_lt_length]
    rintro ⟨e, he, hn⟩
    exact h e he (by simpa using hn)
  rw [Find_eq, if_neg hnot]

/-- A stored entry keeps its name under `quantity += n`. -/
theorem addQuantity_name (n : Int) (e : Item) : (Item.addQuantity n e).name = e.name := rfl

theorem map_name_modify (n : Int) (k : Nat) (l : List Item) :
    (l.modify (Item.addQuantity n) k).map Item.name = l.map Item.name := by
  apply List.ext_getElem?
  intro m
  simp only [List.getElem?_map, List.getElem?_modify]
  cases l[m]? with
  | none => rfl
  | some a => by_cases hk : k = m <;> simp [hk, addQuantity_name]

theorem Remove_eq_eraseIdx {c : Cart} {name : String} {p : Option Nat} {i : Nat}
    (hf : c.Find name = some (p, (i : Int))) (hi : i < c.items.length) :
    c.Remove name = some { items := c.items.eraseIdx i } := by
  have h1 : (0 : Int) ≤ (i : Int) := Int.ofNat_nonneg i
  have h2 : ((i : Int) ≤ (c.items.length : Int)) := by omega
  have h3 : (0 : Int) ≤ (i : Int) + 1 := by omega
  have h4 : ((i : Int) + 1 ≤ (c.items.length : Int)) := by omega
  have h5 : ((i : Int) + 1).toNat = i + 1 := by omega
  simp [Cart.Remove, hf, sliceTo, sliceFrom, h1, h2, h3, h4, h5, List.eraseIdx_eq_take_drop_succ]

theorem Remove_of_not_mem {c : Cart} {name : String} (h : ∀ e ∈ c.items, e.name ≠ name) :
    c.Remove name = some c := by
  simp [Cart.Remove, Find_of_not_mem h]


theorem Add_of_mem {c : Cart} {x : Item} {i : Nat}
    (hf : c.Find x.name = some (some i, (i : Int))) :
    c.Add x = some { items := c.items.modify (Item.addQuantity x.quantity) i } := by
  simp [Cart.Add, hf]

theorem Add_of_not_mem {c : Cart} {x : Item} (h : ∀ e ∈ c.items, e.name ≠ x.name) :
    c.Add x = some { items := c.items ++ [x] } := by
  simp [Cart.Add, Find_of_not_mem h]

theorem uniqueNames_Add {c : Cart} (hu : c.UniqueNames) (x : Item) :
    ∃ c', c.Add x = some c' ∧ c'.UniqueNames := by
  by_cases h : ∃ e ∈ c.items, e.name = x.name
  · obtain ⟨i, _, hf, _, _⟩ := Find_of_mem h
    refine ⟨_, Add_of_mem hf, ?_⟩
    unfold Cart.UniqueNames at hu ⊢
    simpa only [map_name_modify] using hu
  · have h' : ∀ e ∈ c.items, e.name ≠ x.name := fun e he hn => h ⟨e, he, hn⟩
    refine ⟨_, Add_of_not_mem h', ?_⟩
    unfold Cart.UniqueNames at hu ⊢
    rw [List.map_append, List.nodup_append]
    refine ⟨hu, by simp, ?_⟩
    intro a ha hb
    simp only [List.map_cons, List.map_nil, List.mem_singleton] at hb
    obtain ⟨e, he, hn⟩ := List.mem_map.mp ha
    exact h' e he (hn.trans hb)

theorem Remove_total (c : Cart) (name : String) :
    ∃ c', c.Remove name = some c' ∧
      (c' = c ∨ ∃ i, c'.items = c.items.eraseIdx i) := by
  by_cases h : ∃ e ∈ c.items, e.name = name
  · obtain ⟨i, hi, hf, _, _⟩ := Find_of_mem h
    exact ⟨_, Remove_eq_eraseIdx hf hi, Or.inr ⟨i, rfl⟩⟩
  · have h' : ∀ e ∈ c.items, e.name ≠ name := fun e he hn => h ⟨e, he, hn⟩
    exact ⟨c, Remove_of_not_mem h', Or.inl rfl⟩

theorem map_eraseIdx_name (l : List Item) (i : Nat) :
    (l.eraseIdx i).map Item.name = (l.map Item.name).eraseIdx i := by
  induction l generalizing i with
  | nil => rfl
  | cons a l ih =>
    cases i with
    | zero => rfl
    | succ i => simp [List.eraseIdx, ih]

theorem uniqueNames_Remove {c : Cart} (hu : c.UniqueNames) (name : String) :
    ∃ c', c.Remove name = some c' ∧ c'.UniqueNames := by
  obtain ⟨c', hr, hc⟩ := Remove_total c name
  refine ⟨c', hr, ?_⟩
  rcases hc with rfl | ⟨i, hi⟩
  · exact hu
  · unfold Cart.UniqueNames at hu ⊢
    rw [hi, map_eraseIdx_name]
    exact hu.eraseIdx i

theorem uniqueNames_run {ops : List Op} :
    ∀ {c c' : Cart}, c.UniqueNames → c.run ops = some c' → c'.UniqueNames := by
  induction ops with
  | nil =>
    intro c c' hu h
    simp only [Cart.run, Option.some.injEq] at h
    exact h ▸ hu
  | cons op ops ih =>
    intro c c' hu h
    simp only [Cart.run] at h
    cases hs : c.step op with
    | none => simp [hs] at h
    | some c₁ =>
      rw [hs] at h
      simp only [Option.bind] at h
      refine ih ?_ h
      cases op with
      | add item =>
        obtain ⟨c₂, h₂, hu₂⟩ := uniqueNames_Add hu item
        simp only [Cart.step] at hs
        rw [h₂] at hs
        cases hs
        exact hu₂
      | remove name =>
        obtain ⟨c₂, h₂, hu₂⟩ := uniqueNames_Remove hu name
        simp only [Cart.step] at hs
        rw [h₂] at hs
        cases hs
        exact hu₂

theorem uniqueNames_of_reachable {c : Cart} (h : c.Reachable) : c.UniqueNames := by
  obtain ⟨ops, hr⟩ := h
  exact uniqueNames_run (by simp [Cart.UniqueNames, Cart.empty]) hr


theorem find?_eq_getElem?_findIdx (p : Item → Bool) (l : List Item) :
    l.find? p = l[l.findIdx p]? := by
  induction l with
  | nil => rfl
  | cons a l ih =>
    by_cases h : p a = true
    · simp [List.find?_cons, List.findIdx_cons, h]
    · simp only [Bool.not_eq_true] at h
      simp [List.find?_cons, List.findIdx_cons, h, ih]

/-- The entry behind the pointer that `Find` returns is the first entry with the name. -/
theorem deref_Find (c : Cart) (name : String) :
    ∃ p i, c.Find name = some (p, i) ∧
      c.deref p = c.items.find? (fun e => decide (e.name = name)) := by
  rw [Find_eq]
  split
  · exact ⟨_, _, rfl, by simp [Cart.deref, find?_eq_getElem?_findIdx]⟩
  · rename_i h
    refine ⟨none, -1, rfl, ?_⟩
    rw [find?_eq_getElem?_findIdx]
    simp only [Cart.deref]
    rw [List.getElem?_eq_none (not_lt.mp h)]

theorem find?_eraseIdx_of_not (p : Item → Bool) (l : List Item) (i : Nat)
    (h : ∀ e, l[i]? = some e → p e = false) :
    (l.eraseIdx i).find? p = l.find? p := by
  induction l generalizing i with
  | nil => rfl
  | cons a l ih =>
    cases i with
    | zero =>
      have ha : p a = false := h a (by simp)
      simp [List.find?_cons, ha]
    | succ i =>
      have := ih i (by simpa using h)
      simp [List.eraseIdx, List.find?_cons, this]

theorem not_mem_eraseIdx_of_nodup {l : List String} (hl : l.Nodup) {i : Nat} {a : String}
    (ha : l[i]? = some a) : a ∉ l.eraseIdx i := by
  induction l generalizing i with
  | nil => simp
  | cons b l ih =>
    rw [List.nodup_cons] at hl
    cases i with
    | zero =>
      simp only [List.getElem?_cons_zero, Option.some.injEq] at ha
      subst ha
      simpa using hl.1
    | succ i =>
      simp only [List.getElem?_cons_succ] at ha
      simp only [List.eraseIdx, List.mem_cons, not_or]
      refine ⟨?_, ih hl.2 ha⟩
      rintro rfl
      exact hl.1 (List.getElem?_mem ha)

theorem wrapInt_add (a b : Int) : wrapInt (wrapInt a + wrapInt b) = wrapInt (a + b) := by
  unfold wrapInt
  omega

theorem foldl_cost (l : List Item) :
    ∀ a : Int, l.foldl (fun sum item => wrapInt (sum + item.Cost)) (wrapInt a) =
      wrapInt (a + (l.map (fun e => e.price * e.quantity)).sum) := by
  induction l with
  | nil => intro a; simp
  | cons e l ih =>
    intro a
    have h := ih (a + e.price * e.quantity)
    simp only [List.foldl_cons, List.map_cons, List.sum_cons, Item.Cost, wrapInt_add] at h ⊢
    rw [h, add_assoc]

theorem Cost_eq (c : Cart) :
    c.Cost = wrapInt ((c.items.map (fun e => e.price * e.quantity)).sum) := by
  have := foldl_cost c.items 0
  have h0 : wrapInt 0 = 0 := by decide
  simpa [Cart.Cost, h0] using this


theorem Find_index_lt {c : Cart} {name : String} {p : Option Nat} {i : Nat}
    (hf : c.Find name = some (p, (i : Int))) : i < c.items.length ∧ p = some i := by
  rw [Find_eq] at hf
  split at hf
  · rename_i h
    simp only [Option.some.injEq, Prod.mk.injEq, Nat.cast_inj] at hf
    obtain ⟨h1, h2⟩ := hf
    subst h2
    exact ⟨h, h1.symm⟩
  · simp only [Option.some.injEq, Prod.mk.injEq] at hf
    omega

theorem wrapInt_sum_cost (l : List Item) :
    wrapInt ((l.map Item.Cost).sum) = wrapInt ((l.map (fun e => e.price * e.quantity)).sum) := by
  induction l with
  | nil => rfl
  | cons e l ih =>
    simp only [List.map_cons, List.sum_cons, Item.Cost]
    unfold wrapInt at ih ⊢
    omega

/-! ## The cart operations -/

/-- C1 — `Cart.Add`, merge case: when the cart already holds an entry named `x.name`, `Add x`
returns normally, the size is unchanged, the first entry with that name stays at its index
with the same name and price, its quantity becomes the old quantity plus `x.quantity` in
`int` arithmetic (the exact sum whenever that sum fits an `int`), `x.price` plays no part,
and every other slot is unchanged. -/
theorem Cart.add_existing_name (c : Cart) (x : Item) (h : ∃ e ∈ c.items, e.name = x.name) :
    ∃ (i : Nat) (e : Item) (c' : Cart),
      c.Find x.name = some (some i, (i : Int)) ∧
      c.items[i]? = some e ∧ e.name = x.name ∧
      (∀ j : Nat, j < i → ∀ e', c.items[j]? = some e' → e'.name ≠ x.name) ∧
      c.Add x = some c' ∧
      c'.Size = c.Size ∧
      c'.items[i]? =
        some { name := e.name, price := e.price, quantity := wrapInt (e.quantity + x.quantity) } ∧
      (InIntRange (e.quantity + x.quantity) →
        c'.items[i]? =
          some { name := e.name, price := e.price, quantity := e.quantity + x.quantity }) ∧
      ∀ j : Nat, j ≠ i → c'.items[j]? = c.items[j]? := by
  obtain ⟨i, hi, hf, ⟨e, he, hn⟩, hfirst⟩ := Find_of_mem h
  have hnew : (c.items.modify (Item.addQuantity x.quantity) i)[i]? =
      some { name := e.name, price := e.price, quantity := wrapInt (e.quantity + x.quantity) } := by
    simp [List.getElem?_modify, he, Item.addQuantity]
  refine ⟨i, e, _, hf, he, hn, hfirst, Add_of_mem hf, ?_, hnew, ?_, ?_⟩
  · simp [Cart.Size]
  · intro hr
    rw [hnew, wrapInt_of_inRange hr]
  · intro j hj
    simp only [List.getElem?_modify]
    cases c.items[j]? with
    | none => rfl
    | some a => simp [Ne.symm hj]

/-- C2 — `Cart.Add`, new-name case: when no entry is named `x.name` (whatever `x.quantity`
is), `Add x` returns normally and the entry list is the old list with `x` appended: the size
grows by one, the old slots are unchanged, and `Find x.name` returns the address of an
entry equal to `x` together with the old size as index. -/
theorem Cart.add_new_name (c : Cart) (x : Item) (h : ∀ e ∈ c.items, e.name ≠ x.name) :
    ∃ c' : Cart,
      c.Add x = some c' ∧
      c'.items = c.items ++ [x] ∧
      c'.Size = c.Size + 1 ∧
      (∀ j : Nat, j < c.items.length → c'.items[j]? = c.items[j]?) ∧
      c'.Find x.name = some (some c.items.length, c.Size) ∧
      c'.deref (some c.items.length) = some x := by
  refine ⟨_, Add_of_not_mem h, rfl, ?_, ?_, ?_, ?_⟩
  · simp [Cart.Size]
  · intro j hj
    exact List.getElem?_append_left hj
  · have hmem : ∃ e ∈ (Cart.mk (c.items ++ [x])).items, e.name = x.name :=
      ⟨x, by simp, rfl⟩
    obtain ⟨i, hi, hf, ⟨e, he, hn⟩, _⟩ := Find_of_mem hmem
    have hil : i = c.items.length := by
      by_contra hne
      have hlt : i < c.items.length := by
        simp only [List.length_append, List.length_singleton] at hi
        omega
      simp only at he
      rw [List.getElem?_append_left hlt] at he
      exact h e (List.getElem?_mem he) hn
    rw [hf, hil]
    rfl
  · simp [Cart.deref]

/-- C3 — name uniqueness is an invariant: every cart produced from the empty cart by a
sequence of `Add` and `Remove` calls has pairwise distinct names, and on a cart with
pairwise distinct names each `Add` and each `Remove` returns normally with a cart whose
names are again pairwise distinct. -/
theorem Cart.uniqueNames_invariant :
    (∀ c : Cart, c.Reachable → c.UniqueNames) ∧
    (∀ c : Cart, c.UniqueNames →
      (∀ x : Item, ∃ c', c.Add x = some c' ∧ c'.UniqueNames) ∧
      (∀ n : String, ∃ c', c.Remove n = some c' ∧ c'.UniqueNames)) :=
  ⟨fun _ h => uniqueNames_of_reachable h,
   fun _ hu => ⟨fun x => uniqueNames_Add hu x, fun n => uniqueNames_Remove hu n⟩⟩

/-- C4 — `Cart.Find` returns the first match: when some entry is named `n`, the result is
the address of slot `i` together with index `i`, where `0 ≤ i < Size`, the entry in slot
`i` is named `n` and no entry below `i` is; when no entry is named `n` (so also on the
empty cart) the result is the nil pointer and `-1`.  `Find` never panics. -/
theorem Cart.find_first_match (c : Cart) (n : String) :
    ((∃ e ∈ c.items, e.name = n) →
      ∃ (i : Nat) (e : Item),
        c.Find n = some (some i, (i : Int)) ∧
        (0 : Int) ≤ (i : Int) ∧ (i : Int) < c.Size ∧
        c.deref (some i) = some e ∧ c.items[i]? = some e ∧ e.name = n ∧
        ∀ j : Nat, j < i → ∀ e', c.items[j]? = some e' → e'.name ≠ n) ∧
    ((∀ e ∈ c.items, e.name ≠ n) → c.Find n = some (none, -1)) ∧
    Cart.empty.Find n = some (none, -1) := by
  refine ⟨?_, Find_of_not_mem, rfl⟩
  intro h
  obtain ⟨i, hi, hf, ⟨e, he, hn⟩, hfirst⟩ := Find_of_mem h
  refine ⟨i, e, hf, Int.ofNat_nonneg i, ?_, he, he, hn, hfirst⟩
  simp only [Cart.Size]
  exact_mod_cast hi

/-- C5 — `Cart.Remove` is an order-preserving deletion: when `Find n` returns index `i`,
`Remove n` returns normally, the new entry list is the old one with slot `i` erased (slots
below `i` keep their content, slot `j ≥ i` holds the old content of slot `j + 1`), and the
size drops by exactly one. -/
theorem Cart.remove_erases_found (c : Cart) (n : String) (p : Option Nat) (i : Nat)
    (hf : c.Find n = some (p, (i : Int))) :
    ∃ c' : Cart,
      c.Remove n = some c' ∧
      c'.items = c.items.eraseIdx i ∧
      c'.items = c.items.take i ++ c.items.drop (i + 1) ∧
      (∀ j : Nat, j < i → c'.items[j]? = c.items[j]?) ∧
      (∀ j : Nat, i ≤ j → c'.items[j]? = c.items[j + 1]?) ∧
      c'.Size = c.Size - 1 := by
  obtain ⟨hi, _⟩ := Find_index_lt hf
  refine ⟨_, Remove_eq_eraseIdx hf hi, rfl, List.eraseIdx_eq_take_drop_succ _ _, ?_, ?_, ?_⟩
  · intro j hj
    simp [List.getElem?_eraseIdx, hj]
  · intro j hj
    simp [List.getElem?_eraseIdx, not_lt.mpr hj]
  · simp only [Cart.Size, List.length_eraseIdx, if_pos hi]
    omega

/-- C6 — `Cart.Remove` of a missing name is a silent no-op: when no entry is named `n` (so
also on the empty cart) `Remove n` returns normally and the cart is the same, hence has
the same entries, size, cost and `Find` results. -/
theorem Cart.remove_missing_noop (c : Cart) (n : String) (h : ∀ e ∈ c.items, e.name ≠ n) :
    ∃ c' : Cart,
      c.Remove n = some c' ∧ c' = c ∧ c'.items = c.items ∧ c'.Size = c.Size ∧
      c'.Cost = c.Cost ∧ (∀ m : String, c'.Find m = c.Find m) ∧
      Cart.empty.Remove n = some Cart.empty :=
  ⟨c, Remove_of_not_mem h, rfl, rfl, rfl, rfl, fun _ => rfl, rfl⟩

/-- C7 — after removal the name is gone: on a cart produced from the empty cart by `Add`
and `Remove` calls, `Remove n` returns normally, afterwards `Find n` returns the nil pointer
and `-1`, and for every other name `m` that was present `Find m` still returns a pointer to
the same entry as before. -/
theorem Cart.find_after_remove (c : Cart) (n : String) (h : c.Reachable) :
    ∃ c' : Cart,
      c.Remove n = some c' ∧
      c'.Find n = some (none, -1) ∧
      ∀ m : String, m ≠ n → (∃ e ∈ c.items, e.name = m) →
        ∃ (k k' : Nat) (e : Item),
          c.Find m = some (some k, (k : Int)) ∧ c.deref (some k) = some e ∧
          c'.Find m = some (some k', (k' : Int)) ∧ c'.deref (some k') = some e := by
  have hu := uniqueNames_of_reachable h
  by_cases hmem : ∃ e ∈ c.items, e.name = n
  · obtain ⟨i, hi, hf, ⟨e, he, hn⟩, _⟩ := Find_of_mem hmem
    refine ⟨_, Remove_eq_eraseIdx hf hi, ?_, ?_⟩
    · apply Find_of_not_mem
      intro e' he' hn'
      have hnames : (c.items.map Item.name)[i]? = some n := by
        simp [List.getElem?_map, he, hn]
      have := not_mem_eraseIdx_of_nodup hu hnames
      rw [← map_eraseIdx_name] at this
      exact this (List.mem_map.mpr ⟨e', he', hn'⟩)
    · intro m hm hmm
      obtain ⟨k, hk, hfm, ⟨em, hem, hnm⟩, _⟩ := Find_of_mem hmm
      obtain ⟨p, ix, hfp, hd⟩ := deref_Find c m
      obtain ⟨p', ix', hfp', hd'⟩ := deref_Find (Cart.mk (c.items.eraseIdx i)) m
      have hsame : (c.items.eraseIdx i).find? (fun e => decide (e.name = m)) =
          c.items.find? (fun e => decide (e.name = m)) := by
        apply find?_eraseIdx_of_not
        intro e' he'
        rw [he] at he'
        cases he'
        simpa [hn] using Ne.symm hm
      rw [hfm] at hfp
      cases hfp
      have hdk : c.deref (some k) = some em := by simpa [Cart.deref] using hem
      have hmm' : ∃ e ∈ (Cart.mk (c.items.eraseIdx i)).items, e.name = m := by
        have hfind : (c.items.eraseIdx i).find? (fun e => decide (e.name = m)) = some em := by
          rw [hsame, ← hd, hdk]
        exact ⟨em, List.mem_of_find?_eq_some hfind, hnm⟩
      obtain ⟨k', _, hfm', _, _⟩ := Find_of_mem hmm'
      rw [hfm'] at hfp'
      cases hfp'
      refine ⟨k, k', em, hfm, hdk, hfm', ?_⟩
      rw [hd', hsame, ← hd, hdk]
  · have hno : ∀ e ∈ c.items, e.name ≠ n := fun e he hn => hmem ⟨e, he, hn⟩
    refine ⟨c, Remove_of_not_mem hno, Find_of_not_mem hno, ?_⟩
    intro m _ hmm
    obtain ⟨k, _, hfm, ⟨em, hem, _⟩, _⟩ := Find_of_mem hmm
    exact ⟨k, k, em, hfm, by simpa [Cart.deref] using hem, hfm, by simpa [Cart.deref] using hem⟩

/-- C8 — `Cart.Cost` is the sum of the entries' costs: in `int` arithmetic it is the sum of
`Item.Cost` over the entries, which is the sum of `price * quantity` reduced to an `int`,
and is exactly that sum whenever the sum fits an `int`; the empty cart has cost `0`. -/
theorem Cart.cost_is_sum (c : Cart) :
    c.Cost = wrapInt ((c.items.map Item.Cost).sum) ∧
    c.Cost = wrapInt ((c.items.map (fun e => e.price * e.quantity)).sum) ∧
    (InIntRange ((c.items.map (fun e => e.price * e.quantity)).sum) →
      c.Cost = (c.items.map (fun e => e.price * e.quantity)).sum) ∧
    Cart.empty.Cost = 0 := by
  refine ⟨?_, Cost_eq c, ?_, rfl⟩
  · rw [Cost_eq, wrapInt_sum_cost]
  · intro hr
    rw [Cost_eq, wrapInt_of_inRange hr]

/-- C1 at the cart `[banana 7 x 1$, eggs 3 x 2$]` and the item `banana 2 x 5$`. -/
theorem Cart.add_existing_name_witness :
    (∃ e ∈ (Cart.mk [⟨"banana", 1, 7⟩, ⟨"eggs", 2, 3⟩]).items,
      e.name = (Item.mk "banana" 5 2).name) ∧
    ∃ (i : Nat) (e : Item) (c' : Cart),
      (Cart.mk [⟨"banana", 1, 7⟩, ⟨"eggs", 2, 3⟩]).Find (Item.mk "banana" 5 2).name =
        some (some i, (i : Int)) ∧
      (Cart.mk [⟨"banana", 1, 7⟩, ⟨"eggs", 2, 3⟩]).items[i]? = some e ∧
      e.name = (Item.mk "banana" 5 2).name ∧
      (∀ j : Nat, j < i → ∀ e', (Cart.mk [⟨"banana", 1, 7⟩, ⟨"eggs", 2, 3⟩]).items[j]? = some e' →
        e'.name ≠ (Item.mk "banana" 5 2).name) ∧
      (Cart.mk [⟨"banana", 1, 7⟩, ⟨"eggs", 2, 3⟩]).Add (Item.mk "banana" 5 2) = some c' ∧
      c'.Size = (Cart.mk [⟨"banana", 1, 7⟩, ⟨"eggs", 2, 3⟩]).Size ∧
      c'.items[i]? =
        some { name := e.name, price := e.price,
               quantity := wrapInt (e.quantity + (Item.mk "banana" 5 2).quantity) } ∧
      (InIntRange (e.quantity + (Item.mk "banana" 5 2).quantity) →
        c'.items[i]? =
          some { name := e.name, price := e.price,
                 quantity := e.quantity + (Item.mk "banana" 5 2).quantity }) ∧
      ∀ j : Nat, j ≠ i → c'.items[j]? = (Cart.mk [⟨"banana", 1, 7⟩, ⟨"eggs", 2, 3⟩]).items[j]? :=
  ⟨by decide, Cart.add_existing_name _ _ (by decide)⟩

/-- C2 at the cart `[banana 7 x 1$]` and the item `eggs 0 x 2$` (quantity zero). -/
theorem Cart.add_new_name_witness :
    (∀ e ∈ (Cart.mk [⟨"banana", 1, 7⟩]).items, e.name ≠ (Item.mk "eggs" 2 0).name) ∧
    ∃ c' : Cart,
      (Cart.mk [⟨"banana", 1, 7⟩]).Add (Item.mk "eggs" 2 0) = some c' ∧
      c'.items = (Cart.mk [⟨"banana", 1, 7⟩]).items ++ [Item.mk "eggs" 2 0] ∧
      c'.Size = (Cart.mk [⟨"banana", 1, 7⟩]).Size + 1 ∧
      (∀ j : Nat, j < (Cart.mk [⟨"banana", 1, 7⟩]).items.length →
        c'.items[j]? = (Cart.mk [⟨"banana", 1, 7⟩]).items[j]?) ∧
      c'.Find (Item.mk "eggs" 2 0).name =
        some (some (Cart.mk [⟨"banana", 1, 7⟩]).items.length, (Cart.mk [⟨"banana", 1, 7⟩]).Size) ∧
      c'.deref (some (Cart.mk [⟨"banana", 1, 7⟩]).items.length) = some (Item.mk "eggs" 2 0) :=
  ⟨by decide, Cart.add_new_name _ _ (by decide)⟩

/-- C3 at the cart produced by `Add(banana 7 x 1$)`, `Add(eggs 3 x 2$)`, `Add(banana 2 x 1$)`,
`Remove("eggs")`. -/
theorem Cart.uniqueNames_invariant_witness :
    Cart.empty.run [.add ⟨"banana", 1, 7⟩, .add ⟨"eggs", 2, 3⟩, .add ⟨"banana", 1, 2⟩,
      .remove "eggs"] = some (Cart.mk [⟨"banana", 1, 9⟩]) ∧
    (Cart.mk [⟨"banana", 1, 9⟩]).UniqueNames ∧
    (∃ c', (Cart.mk [⟨"banana", 1, 9⟩]).Add ⟨"banana", 3, 1⟩ = some c' ∧ c'.UniqueNames) ∧
    (∃ c', (Cart.mk [⟨"banana", 1, 9⟩]).Remove "banana" = some c' ∧ c'.UniqueNames) :=
  have hu : (Cart.mk [⟨"banana", 1, 9⟩]).UniqueNames :=
    Cart.uniqueNames_invariant.1 _ ⟨_, (by decide :
      Cart.empty.run [.add ⟨"banana", 1, 7⟩, .add ⟨"eggs", 2, 3⟩, .add ⟨"banana", 1, 2⟩,
        .remove "eggs"] = some (Cart.mk [⟨"banana", 1, 9⟩]))⟩
  ⟨by decide, hu, (Cart.uniqueNames_invariant.2 _ hu).1 _, (Cart.uniqueNames_invariant.2 _ hu).2 _⟩

/-- C4 at the cart `[banana 9 x 1$, eggs 3 x 2$]`: `"eggs"` is found, `"ketchup"` is not. -/
theorem Cart.find_first_match_witness :
    (∃ (i : Nat) (e : Item),
        (Cart.mk [⟨"banana", 1, 9⟩, ⟨"eggs", 2, 3⟩]).Find "eggs" = some (some i, (i : Int)) ∧
        (0 : Int) ≤ (i : Int) ∧ (i : Int) < (Cart.mk [⟨"banana", 1, 9⟩, ⟨"eggs", 2, 3⟩]).Size ∧
        (Cart.mk [⟨"banana", 1, 9⟩, ⟨"eggs", 2, 3⟩]).deref (some i) = some e ∧
        (Cart.mk [⟨"banana", 1, 9⟩, ⟨"eggs", 2, 3⟩]).items[i]? = some e ∧ e.name = "eggs" ∧
        ∀ j : Nat, j < i → ∀ e', (Cart.mk [⟨"banana", 1, 9⟩, ⟨"eggs", 2, 3⟩]).items[j]? = some e' →
          e'.name ≠ "eggs") ∧
    (Cart.mk [⟨"banana", 1, 9⟩, ⟨"eggs", 2, 3⟩]).Find "ketchup" = some (none, -1) :=
  ⟨(Cart.find_first_match _ _).1 (by decide), (Cart.find_first_match _ _).2.1 (by decide)⟩

/-- C5 at the cart `[banana 9 x 1$, eggs 3 x 2$, milk 1 x 4$]` and the name `"eggs"`, found
at index `1`. -/
theorem Cart.remove_erases_found_witness :
    (Cart.mk [⟨"banana", 1, 9⟩, ⟨"eggs", 2, 3⟩, ⟨"milk", 4, 1⟩]).Find "eggs" =
      some (some 1, ((1 : Nat) : Int)) ∧
    ∃ c' : Cart,
      (Cart.mk [⟨"banana", 1, 9⟩, ⟨"eggs", 2, 3⟩, ⟨"milk", 4, 1⟩]).Remove "eggs" = some c' ∧
      c'.items = (Cart.mk [⟨"banana", 1, 9⟩, ⟨"eggs", 2, 3⟩, ⟨"milk", 4, 1⟩]).items.eraseIdx 1 ∧
      c'.items = (Cart.mk [⟨"banana", 1, 9⟩, ⟨"eggs", 2, 3⟩, ⟨"milk", 4, 1⟩]).items.take 1 ++
        (Cart.mk [⟨"banana", 1, 9⟩, ⟨"eggs", 2, 3⟩, ⟨"milk", 4, 1⟩]).items.drop (1 + 1) ∧
      (∀ j : Nat, j < 1 → c'.items[j]? =
        (Cart.mk [⟨"banana", 1, 9⟩, ⟨"eggs", 2, 3⟩, ⟨"milk", 4, 1⟩]).items[j]?) ∧
      (∀ j : Nat, 1 ≤ j → c'.items[j]? =
        (Cart.mk [⟨"banana", 1, 9⟩, ⟨"eggs", 2, 3⟩, ⟨"milk", 4, 1⟩]).items[j + 1]?) ∧
      c'.Size = (Cart.mk [⟨"banana", 1, 9⟩, ⟨"eggs", 2, 3⟩, ⟨"milk", 4, 1⟩]).Size - 1 :=
  ⟨by decide, Cart.remove_erases_found _ _ (some 1) 1 (by decide)⟩

/-- C6 at the cart `[banana 9 x 1$]` and the name `"ketchup"`. -/
theorem Cart.remove_missing_noop_witness :
    (∀ e ∈ (Cart.mk [⟨"banana", 1, 9⟩]).items, e.name ≠ "ketchup") ∧
    ∃ c' : Cart,
      (Cart.mk [⟨"banana", 1, 9⟩]).Remove "ketchup" = some c' ∧
      c' = Cart.mk [⟨"banana", 1, 9⟩] ∧ c'.items = (Cart.mk [⟨"banana", 1, 9⟩]).items ∧
      c'.Size = (Cart.mk [⟨"banana", 1, 9⟩]).Size ∧
      c'.Cost = (Cart.mk [⟨"banana", 1, 9⟩]).Cost ∧
      (∀ m : String, c'.Find m = (Cart.mk [⟨"banana", 1, 9⟩]).Find m) ∧
      Cart.empty.Remove "ketchup" = some Cart.empty :=
  ⟨by decide, Cart.remove_missing_noop _ _ (by decide)⟩

/-- C7 at the cart produced by `Add(banana 7 x 1$)`, `Add(eggs 3 x 2$)`, `Add(banana 2 x 1$)`
and the name `"eggs"`. -/
theorem Cart.find_after_remove_witness :
    (Cart.mk [⟨"banana", 1, 9⟩, ⟨"eggs", 2, 3⟩]).Reachable ∧
    ∃ c' : Cart,
      (Cart.mk [⟨"banana", 1, 9⟩, ⟨"eggs", 2, 3⟩]).Remove "eggs" = some c' ∧
      c'.Find "eggs" = some (none, -1) ∧
      ∀ m : String, m ≠ "eggs" →
        (∃ e ∈ (Cart.mk [⟨"banana", 1, 9⟩, ⟨"eggs", 2, 3⟩]).items, e.name = m) →
        ∃ (k k' : Nat) (e : Item),
          (Cart.mk [⟨"banana", 1, 9⟩, ⟨"eggs", 2, 3⟩]).Find m = some (some k, (k : Int)) ∧
          (Cart.mk [⟨"banana", 1, 9⟩, ⟨"eggs", 2, 3⟩]).deref (some k) = some e ∧
          c'.Find m = some (some k', (k' : Int)) ∧ c'.deref (some k') = some e :=
  have hr : (Cart.mk [⟨"banana", 1, 9⟩, ⟨"eggs", 2, 3⟩]).Reachable :=
    ⟨[.add ⟨"banana", 1, 7⟩, .add ⟨"eggs", 2, 3⟩, .add ⟨"banana", 1, 2⟩], by decide⟩
  ⟨hr, Cart.find_after_remove _ _ hr⟩

/-- C8 at the cart `[ice cream 10 x 2$, banana 7 x 1$]`, whose cost is `27`. -/
theorem Cart.cost_is_sum_witness :
    InIntRange (((Cart.mk [⟨"ice cream", 2, 10⟩, ⟨"banana", 1, 7⟩]).items.map
      (fun e => e.price * e.quantity)).sum) ∧
    (Cart.mk [⟨"ice cream", 2, 10⟩, ⟨"banana", 1, 7⟩]).Cost =
      ((Cart.mk [⟨"ice cream", 2, 10⟩, ⟨"banana", 1, 7⟩]).items.map
        (fun e => e.price * e.quantity)).sum ∧
    (Cart.mk [⟨"ice cream", 2, 10⟩, ⟨"banana", 1, 7⟩]).Cost = 27 :=
  ⟨by decide, (Cart.cost_is_sum _).2.2.1 (by decide), by decide⟩

/-! ## Rounding to float32 is correct rounding -/

theorem bitLengthAux_zero (fuel : Nat) : bitLengthAux fuel 0 = 0 := by
  cases fuel <;> simp [bitLengthAux]

theorem bitLengthAux_spec :
    ∀ (fuel n : Nat), n ≤ fuel → 0 < n →
      2 ^ (bitLengthAux fuel n - 1) ≤ n ∧ n < 2 ^ bitLengthAux fuel n := by
  intro fuel
  induction fuel with
  | zero => intro n h1 h2; omega
  | succ fuel ih =>
    intro n hle hpos
    have hne : n ≠ 0 := by omega
    simp only [bitLengthAux, hne, if_false, Nat.add_sub_cancel]
    by_cases h1 : n / 2 = 0
    · rw [h1, bitLengthAux_zero]
      have : n = 1 := by omega
      subst this
      simp
    · have hpos2 : 0 < n / 2 := Nat.pos_of_ne_zero h1
      obtain ⟨hlo, hhi⟩ := ih (n / 2) (by omega) hpos2
      have hb : 0 < bitLengthAux fuel (n / 2) := by
        by_contra hc
        have h0 : bitLengthAux fuel (n / 2) = 0 := by omega
        rw [h0] at hhi
        simp at hhi
        omega
      have hsplit : 2 ^ bitLengthAux fuel (n / 2) = 2 * 2 ^ (bitLengthAux fuel (n / 2) - 1) := by
        rw [← pow_succ']
        congr 1
        omega
      constructor
      · rw [hsplit]; omega
      · rw [pow_succ]; omega

/-- The number of binary digits brackets a positive number between two powers of two. -/
theorem bitLength_spec (n : Nat) (h : 0 < n) :
    2 ^ (bitLength n - 1) ≤ n ∧ n < 2 ^ bitLength n :=
  bitLengthAux_spec n n le_rfl h

/-- The integer chosen by `roundHalfEven` is within half a unit of the exact quotient. -/
theorem roundHalfEven_half (n d : Nat) (hd : 0 < d) :
    2 * (roundHalfEven n d * d) ≤ 2 * n + d ∧ 2 * n ≤ 2 * (roundHalfEven n d * d) + d := by
  have hdm := Nat.div_add_mod n d
  have hlt := Nat.mod_lt n hd
  have hmul : d * (n / d) = n / d * d := Nat.mul_comm _ _
  simp only [roundHalfEven]
  split
  · omega
  · split
    · rw [Nat.add_mul]; omega
    · split
      · omega
      · rw [Nat.add_mul]; omega

/-- On a tie `roundHalfEven` chooses the even neighbour. -/
theorem roundHalfEven_tie (n d : Nat) (h : 2 * (n % d) = d) :
    roundHalfEven n d % 2 = 0 := by
  simp only [roundHalfEven]
  have h1 : ¬ 2 * (n % d) < d := by omega
  have h2 : ¬ d < 2 * (n % d) := by omega
  rw [if_neg h1, if_neg h2]
  split
  · assumption
  · omega

/-- Powers of two with an integer exponent, as a quotient of two natural powers. -/
theorem two_zpow_eq (k : Int) : (2 : ℚ) ^ k = (2 : ℚ) ^ k.toNat / (2 : ℚ) ^ (-k).toNat := by
  rcases le_total 0 k with h | h
  · have h1 : (-k).toNat = 0 := by omega
    rw [h1, pow_zero, div_one, ← zpow_natCast, Int.toNat_of_nonneg h]
  · have h1 : k.toNat = 0 := by omega
    have h2 : ((-k).toNat : Int) = -k := Int.toNat_of_nonneg (by omega)
    rw [h1, pow_zero, one_div, ← zpow_natCast, h2, zpow_neg, inv_inv]

/-- The comparison made by `Float32.round` is the comparison of `2^k` with `n / d`. -/
theorem scaled_le_iff (n d : Nat) (hd : 0 < d) (k : Int) :
    d * 2 ^ k.toNat ≤ n * 2 ^ (-k).toNat ↔ (2 : ℚ) ^ k ≤ (n : ℚ) / d := by
  have hd' : (0 : ℚ) < d := by exact_mod_cast hd
  have hp : (0 : ℚ) < (2 : ℚ) ^ (-k).toNat := by positivity
  rw [two_zpow_eq, div_le_div_iff₀ hp hd']
  constructor
  · intro h
    have : ((d * 2 ^ k.toNat : Nat) : ℚ) ≤ ((n * 2 ^ (-k).toNat : Nat) : ℚ) := by exact_mod_cast h
    push_cast at this
    linarith
  · intro h
    have : ((d * 2 ^ k.toNat : Nat) : ℚ) ≤ ((n * 2 ^ (-k).toNat : Nat) : ℚ) := by
      push_cast
      linarith
    exact_mod_cast this

/-- The binary exponent chosen by `Float32.round` brackets the quotient. -/
theorem exponent_brackets (n d : Nat) (hn : 0 < n) (hd : 0 < d) :
    (2 : ℚ) ^ (if d * 2 ^ ((bitLength n : Int) - (bitLength d : Int)).toNat ≤
          n * 2 ^ (-((bitLength n : Int) - (bitLength d : Int))).toNat
        then (bitLength n : Int) - (bitLength d : Int)
        else (bitLength n : Int) - (bitLength d : Int) - 1) ≤ (n : ℚ) / d ∧
    (n : ℚ) / d < (2 : ℚ) ^ ((if d * 2 ^ ((bitLength n : Int) - (bitLength d : Int)).toNat ≤
          n * 2 ^ (-((bitLength n : Int) - (bitLength d : Int))).toNat
        then (bitLength n : Int) - (bitLength d : Int)
        else (bitLength n : Int) - (bitLength d : Int) - 1) + 1) := by
  obtain ⟨hnlo, hnhi⟩ := bitLength_spec n hn
  obtain ⟨hdlo, hdhi⟩ := bitLength_spec d hd
  have hd' : (0 : ℚ) < d := by exact_mod_cast hd
  have hbn : 0 < bitLength n := by
    by_contra hc
    have h0 : bitLength n = 0 := by omega
    rw [h0] at hnhi; simp at hnhi; omega
  have hbd : 0 < bitLength d := by
    by_contra hc
    have h0 : bitLength d = 0 := by omega
    rw [h0] at hdhi; simp at hdhi; omega
  have qnlo : (2 : ℚ) ^ ((bitLength n : Int) - 1) ≤ n := by
    have : ((2 ^ (bitLength n - 1) : Nat) : ℚ) ≤ n := by exact_mod_cast hnlo
    rw [show (bitLength n : Int) - 1 = ((bitLength n - 1 : Nat) : Int) by omega, zpow_natCast]
    exact_mod_cast this
  have qnhi : (n : ℚ) < (2 : ℚ) ^ (bitLength n : Int) := by
    rw [zpow_natCast]; exact_mod_cast hnhi
  have qdlo : (2 : ℚ) ^ ((bitLength d : Int) - 1) ≤ d := by
    have : ((2 ^ (bitLength d - 1) : Nat) : ℚ) ≤ d := by exact_mod_cast hdlo
    rw [show (bitLength d : Int) - 1 = ((bitLength d - 1 : Nat) : Int) by omega, zpow_natCast]
    exact_mod_cast this
  have qdhi : (d : ℚ) < (2 : ℚ) ^ (bitLength d : Int) := by
    rw [zpow_natCast]; exact_mod_cast hdhi
  have h2 : (0 : ℚ) < 2 := by norm_num
  split
  · rename_i h
    refine ⟨(scaled_le_iff n d hd _).mp h, ?_⟩
    rw [div_lt_iff₀ hd']
    calc (n : ℚ) < (2 : ℚ) ^ (bitLength n : Int) := qnhi
      _ = (2 : ℚ) ^ ((bitLength n : Int) - (bitLength d : Int) + 1) *
            (2 : ℚ) ^ ((bitLength d : Int) - 1) := by
          rw [← zpow_add₀ (by norm_num : (2 : ℚ) ≠ 0)]; congr 1; ring
      _ ≤ (2 : ℚ) ^ ((bitLength n : Int) - (bitLength d : Int) + 1) * d :=
          mul_le_mul_of_nonneg_left qdlo (by positivity)
  · rename_i h
    have hlt : (n : ℚ) / d < (2 : ℚ) ^ ((bitLength n : Int) - (bitLength d : Int)) := by
      rw [← not_le]
      exact fun hc => h ((scaled_le_iff n d hd _).mpr hc)
    refine ⟨?_, by simpa using hlt⟩
    rw [le_div_iff₀ hd']
    calc (2 : ℚ) ^ ((bitLength n : Int) - (bitLength d : Int) - 1) * d
        ≤ (2 : ℚ) ^ ((bitLength n : Int) - (bitLength d : Int) - 1) *
            (2 : ℚ) ^ (bitLength d : Int) :=
          mul_le_mul_of_nonneg_left qdhi.le (by positivity)
      _ = (2 : ℚ) ^ ((bitLength n : Int) - 1) := by
          rw [← zpow_add₀ (by norm_num : (2 : ℚ) ≠ 0)]; congr 1; ring
      _ ≤ n := qnlo

/-- The result of `Float32.round` on a positive quotient: the significand has 24 bits
(`2^24` standing for a carry into the next binade), the sign is kept, and the value is
within half a unit in the last place of the exact `(n / d) * 2^e`. -/
theorem Float32.round_spec (neg : Bool) (n d : Nat) (e : Int) (hn : 0 < n) (hd : 0 < d) :
    2 ^ 23 ≤ (Float32.round neg n d e).man ∧ (Float32.round neg n d e).man ≤ 2 ^ 24 ∧
    (Float32.round neg n d e).neg = neg ∧
    |(n : ℚ) / d * (2 : ℚ) ^ e -
        ((Float32.round neg n d e).man : ℚ) * (2 : ℚ) ^ (Float32.round neg n d e).exp| ≤
      (2 : ℚ) ^ (Float32.round neg n d e).exp / 2 := by
  obtain ⟨hlo, hhi⟩ := exponent_brackets n d hn hd
  have hne : n ≠ 0 := by omega
  simp only [Float32.round, hne, if_false]
  generalize (if d * 2 ^ ((bitLength n : Int) - (bitLength d : Int)).toNat ≤
          n * 2 ^ (-((bitLength n : Int) - (bitLength d : Int))).toNat
        then (bitLength n : Int) - (bitLength d : Int)
        else (bitLength n : Int) - (bitLength d : Int) - 1) = lg at hlo hhi ⊢
  have hd' : (0 : ℚ) < d := by exact_mod_cast hd
  have h2 : (2 : ℚ) ≠ 0 := by norm_num
  have hDpos : 0 < d * 2 ^ (lg - 23).toNat := Nat.mul_pos hd (by positivity)
  have hDq : (0 : ℚ) < ((d * 2 ^ (lg - 23).toNat : Nat) : ℚ) := by exact_mod_cast hDpos
  obtain ⟨hr1, hr2⟩ := roundHalfEven_half (n * 2 ^ (-(lg - 23)).toNat) (d * 2 ^ (lg - 23).toNat) hDpos
  generalize roundHalfEven (n * 2 ^ (-(lg - 23)).toNat) (d * 2 ^ (lg - 23).toNat) = m at hr1 hr2 ⊢
  -- the scaled quotient
  have hx : ((n * 2 ^ (-(lg - 23)).toNat : Nat) : ℚ) =
      (n : ℚ) / d * (2 : ℚ) ^ (-(lg - 23)) * ((d * 2 ^ (lg - 23).toNat : Nat) : ℚ) := by
    rw [two_zpow_eq (-(lg - 23)), neg_neg]
    push_cast
    have hp : (2 : ℚ) ^ (lg - 23).toNat ≠ 0 := by positivity
    field_simp
  have q1 : 2 * ((m : ℚ) * ((d * 2 ^ (lg - 23).toNat : Nat) : ℚ)) ≤
      2 * ((n * 2 ^ (-(lg - 23)).toNat : Nat) : ℚ) + ((d * 2 ^ (lg - 23).toNat : Nat) : ℚ) := by
    exact_mod_cast hr1
  have q2 : 2 * ((n * 2 ^ (-(lg - 23)).toNat : Nat) : ℚ) ≤
      2 * ((m : ℚ) * ((d * 2 ^ (lg - 23).toNat : Nat) : ℚ)) + ((d * 2 ^ (lg - 23).toNat : Nat) : ℚ) := by
    exact_mod_cast hr2
  rw [hx] at q1 q2
  generalize ((d * 2 ^ (lg - 23).toNat : Nat) : ℚ) = D at hDq q1 q2
  have hxlo : (2 : ℚ) ^ (23 : Int) ≤ (n : ℚ) / d * (2 : ℚ) ^ (-(lg - 23)) := by
    have : (2 : ℚ) ^ (23 : Int) = (2 : ℚ) ^ lg * (2 : ℚ) ^ (-(lg - 23)) := by
      rw [← zpow_add₀ h2]; congr 1; ring
    rw [this]
    exact mul_le_mul_of_nonneg_right hlo (by positivity)
  have hxhi : (n : ℚ) / d * (2 : ℚ) ^ (-(lg - 23)) < (2 : ℚ) ^ (24 : Int) := by
    have : (2 : ℚ) ^ (24 : Int) = (2 : ℚ) ^ (lg + 1) * (2 : ℚ) ^ (-(lg - 23)) := by
      rw [← zpow_add₀ h2]; congr 1; ring
    rw [this]
    exact mul_lt_mul_of_pos_right hhi (by positivity)
  have hxe : (n : ℚ) / d * (2 : ℚ) ^ e =
      (n : ℚ) / d * (2 : ℚ) ^ (-(lg - 23)) * (2 : ℚ) ^ (e + (lg - 23)) := by
    rw [mul_assoc, ← zpow_add₀ h2]; congr 2; ring
  rw [hxe]
  generalize (n : ℚ) / d * (2 : ℚ) ^ (-(lg - 23)) = x at q1 q2 hxlo hxhi ⊢
  have b1 : 2 * (m : ℚ) ≤ 2 * x + 1 := by
    by_contra hc
    push_neg at hc
    nlinarith
  have b2 : 2 * x ≤ 2 * (m : ℚ) + 1 := by
    by_contra hc
    push_neg at hc
    nlinarith
  norm_num at hxlo hxhi
  refine ⟨?_, ?_, trivial, ?_⟩
  · by_contra hc
    have hm : m ≤ 8388607 := by omega
    have hq : (m : ℚ) ≤ 8388607 := by exact_mod_cast hm
    linarith
  · by_contra hc
    have hm : 16777217 ≤ m := by omega
    have hq : (16777217 : ℚ) ≤ m := by exact_mod_cast hm
    linarith
  · have hp : (0 : ℚ) < (2 : ℚ) ^ (e + (lg - 23)) := by positivity
    rw [← sub_mul, abs_mul, abs_of_pos hp]
    have : |x - (m : ℚ)| ≤ 1 / 2 := by
      rw [abs_le]; constructor <;> linarith
    calc |x - (m : ℚ)| * (2 : ℚ) ^ (e + (lg - 23)) ≤ 1 / 2 * (2 : ℚ) ^ (e + (lg - 23)) :=
          mul_le_mul_of_nonneg_right this hp.le
      _ = (2 : ℚ) ^ (e + (lg - 23)) / 2 := by ring

/-! ## The discount -/

/-- C9 — `Discount.Calc` on the repository's test inputs and at `Discount{53}` applied to
an item of cost `100`: the tests' values `2`, `1`, `1` come out, but `53` percent of `100`
comes out as `52`, whereas truncating the exact product `53 * 100 / 100` gives `53`.
(`float32(53) / float32(100)` is `8891924 * 2^-24`, just below `0.53`, and its product with
`100` rounds to `13893631 * 2^-18`, just below `53`.) -/
theorem Discount.calc_float32_below_exact :
    Discount.Calc ⟨10⟩ (.item ⟨"ice cream", 2, 10⟩) = some 2 ∧
    Discount.Calc ⟨7⟩ (.item ⟨"ice cream", 2, 10⟩) = some 1 ∧
    Discount.Calc ⟨7⟩ (.cart ⟨[⟨"ice cream", 2, 10⟩, ⟨"banana", 1, 7⟩]⟩) = some 1 ∧
    Costing.Cost (.item ⟨"ice cream", 10, 10⟩) = 100 ∧
    Float32.div (Float32.ofInt 53) (Float32.ofInt 100) = ⟨false, 8891924, -24⟩ ∧
    Float32.mul ⟨false, 8891924, -24⟩ (Float32.ofInt 100) = ⟨false, 13893631, -18⟩ ∧
    Discount.Calc ⟨53⟩ (.item ⟨"ice cream", 10, 10⟩) = some 52 ∧
    (53 * 100 / 100 : Int) = 53 := by
  decide

/-- C10 — `Discount{100}.Calc` at an item of cost `16777217 = 2^24 + 1`: `float32` has no
such value, the conversion rounds the cost to `2^24`, and the result is `16777216`, one
less than the cost. -/
theorem Discount.calc_full_percent_large_cost :
    Costing.Cost (.item ⟨"car", 16777217, 1⟩) = 16777217 ∧
    Float32.ofInt 16777217 = ⟨false, 8388608, 1⟩ ∧
    Discount.Calc ⟨100⟩ (.item ⟨"car", 16777217, 1⟩) = some 16777216 := by
  decide


/-! ## Zero percent, item cost, totality -/

theorem toInt_zero (b : Bool) (e : Int) : Float32.toInt ⟨b, 0, e⟩ = some 0 := by
  cases b <;> simp [Float32.toInt, InIntRange]

theorem round_zero (b : Bool) (d : Nat) (e : Int) :
    Float32.round b 0 d e = ⟨b, 0, 0⟩ := by
  simp [Float32.round]

/-- C11 — a 0 percent discount is zero: for every item and every cart, whatever its cost,
`Discount{0}.Calc` returns `0` (`float32(0) / float32(100)` is zero, a product with zero is
zero, and its conversion to `int` is `0`). -/
theorem Discount.calc_zero_percent (x : Costing) : Discount.Calc ⟨0⟩ x = some 0 := by
  have h0 : Float32.ofInt 0 = ⟨false, 0, 0⟩ := by decide
  simp only [Discount.Calc, h0, Float32.div, Float32.mul, round_zero, Nat.zero_mul, toInt_zero]

/-- C16 — `Item.Cost` is unit price times quantity, in `int` arithmetic (the exact product
whenever it fits an `int`); price `1` and quantity `7` give `7`, and a quantity of zero or
a price of zero gives `0`. -/
theorem Item.cost_is_price_times_quantity (i : Item) :
    i.Cost = wrapInt (i.price * i.quantity) ∧
    (InIntRange (i.price * i.quantity) → i.Cost = i.price * i.quantity) ∧
    (Item.mk "banana" 1 7).Cost = 7 ∧
    (i.quantity = 0 → i.Cost = 0) ∧ (i.price = 0 → i.Cost = 0) := by
  refine ⟨rfl, fun h => wrapInt_of_inRange h, by decide, ?_, ?_⟩
  · intro h
    simp only [Item.Cost, h, mul_zero]
    decide
  · intro h
    simp only [Item.Cost, h, zero_mul]
    decide

/-- C16 at the items `banana 7 x 1$`, `banana 0 x 5$` and `banana 7 x 0$`. -/
theorem Item.cost_is_price_times_quantity_witness :
    InIntRange ((Item.mk "banana" 1 7).price * (Item.mk "banana" 1 7).quantity) ∧
    (Item.mk "banana" 1 7).Cost = (Item.mk "banana" 1 7).price * (Item.mk "banana" 1 7).quantity ∧
    (Item.mk "banana" 5 0).Cost = 0 ∧ (Item.mk "banana" 0 7).Cost = 0 :=
  ⟨by decide, (Item.cost_is_price_times_quantity _).2.1 (by decide),
    (Item.cost_is_price_times_quantity (Item.mk "banana" 5 0)).2.2.2.1 rfl,
    (Item.cost_is_price_times_quantity (Item.mk "banana" 0 7)).2.2.2.2 rfl⟩

theorem Find_total (c : Cart) (name : String) :
    ∃ p i, c.Find name = some (p, i) ∧
      ((∃ k : Nat, i = (k : Int) ∧ p = some k ∧ k < c.items.length) ∨ (i = -1 ∧ p = none)) := by
  rw [Find_eq]
  split
  · rename_i h
    exact ⟨_, _, rfl, Or.inl ⟨_, rfl, rfl, h⟩⟩
  · exact ⟨_, _, rfl, Or.inr ⟨rfl, rfl⟩⟩

theorem Add_total (c : Cart) (x : Item) : ∃ c', c.Add x = some c' := by
  by_cases h : ∃ e ∈ c.items, e.name = x.name
  · obtain ⟨i, _, hf, _, _⟩ := Find_of_mem h
    exact ⟨_, Add_of_mem hf⟩
  · exact ⟨_, Add_of_not_mem (fun e he hn => h ⟨e, he, hn⟩)⟩

/-- C18 — the cart operations are total and index-safe: `Find`, `Add` and `Remove` return
normally on every cart (`Size` and `Cost` are total functions); the index returned by
`Find` is `-1` with the nil pointer, or satisfies `0 ≤ index < len(items)` with the pointer
to that slot, and then the element access `items[index]` and the slice expressions
`items[:index]` and `items[index+1:]` of `Remove` are in bounds. -/
theorem Cart.operations_total (c : Cart) (n : String) (x : Item) :
    (∃ p i, c.Find n = some (p, i) ∧
      (i = -1 ∧ p = none ∨
        0 ≤ i ∧ i < (c.items.length : Int) ∧ p = some i.toNat ∧
        (∃ e, c.items[i.toNat]? = some e) ∧
        (∃ front, sliceTo c.items i = some front) ∧
        (∃ back, sliceFrom c.items (i + 1) = some back))) ∧
    (∃ c', c.Add x = some c') ∧
    (∃ c', c.Remove n = some c') ∧
    0 ≤ c.Size ∧ c.Cost = wrapInt c.Cost := by
  refine ⟨?_, Add_total c x, ?_, ?_, ?_⟩
  · obtain ⟨p, i, hf, h | h⟩ := Find_total c n
    · obtain ⟨k, rfl, rfl, hk⟩ := h
      refine ⟨_, _, hf, Or.inr ⟨Int.ofNat_nonneg k, by exact_mod_cast hk, rfl, ?_, ?_, ?_⟩⟩
      · exact ⟨c.items[k], by simp [hk]⟩
      · have h2 : (k : Int) ≤ (c.items.length : Int) := by omega
        exact ⟨c.items.take k, by simp [sliceTo, h2]⟩
      · have h3 : (0 : Int) ≤ (k : Int) + 1 := by omega
        have h4 : (k : Int) + 1 ≤ (c.items.length : Int) := by omega
        have h5 : ((k : Int) + 1).toNat = k + 1 := by omega
        exact ⟨c.items.drop (k + 1), by simp [sliceFrom, h3, h4, h5]⟩
    · exact ⟨p, i, hf, Or.inl h⟩
  · obtain ⟨c', h, _⟩ := Remove_total c n
    exact ⟨c', h⟩
  · simp [Cart.Size]
  · rw [Cost_eq, wrapInt_of_inRange (wrapInt_inRange _)]

/-! ## The effect of `Add` and `Remove` on the total -/

theorem wrapInt_congr {a b : Int} (h : a % 2 ^ 64 = b % 2 ^ 64) : wrapInt a = wrapInt b := by
  unfold wrapInt
  omega

theorem wrapInt_emod (a : Int) : wrapInt a % 2 ^ 64 = a % 2 ^ 64 := by
  unfold wrapInt
  omega

theorem wrapInt_add_mul_wrap (a p b : Int) :
    wrapInt (a + p * wrapInt b) = wrapInt (a + p * b) := by
  apply wrapInt_congr
  have h : wrapInt b ≡ b [ZMOD 2 ^ 64] := wrapInt_emod b
  exact (Int.ModEq.refl a).add ((Int.ModEq.refl p).mul h)

theorem sum_map_modify (f : Item → Item) (g : Item → Int) :
    ∀ (l : List Item) (i : Nat) (e : Item), l[i]? = some e →
      ((l.modify f i).map g).sum = (l.map g).sum - g e + g (f e) := by
  intro l
  induction l with
  | nil => intro i e h; simp at h
  | cons a l ih =>
    intro i e h
    cases i with
    | zero =>
      simp only [List.getElem?_cons_zero, Option.some.injEq] at h
      subst h
      simp only [List.modify, List.modifyTailIdx, List.modifyHead, List.map_cons, List.sum_cons]
      ring
    | succ i =>
      simp only [List.getElem?_cons_succ] at h
      have := ih i e h
      simp only [List.modify, List.modifyTailIdx, List.map_cons, List.sum_cons] at this ⊢
      rw [this]
      ring

theorem sum_map_eraseIdx (g : Item → Int) :
    ∀ (l : List Item) (i : Nat) (e : Item), l[i]? = some e →
      (l.map g).sum = g e + ((l.eraseIdx i).map g).sum := by
  intro l
  induction l with
  | nil => intro i e h; simp at h
  | cons a l ih =>
    intro i e h
    cases i with
    | zero =>
      simp only [List.getElem?_cons_zero, Option.some.injEq] at h
      subst h
      simp
    | succ i =>
      simp only [List.getElem?_cons_succ] at h
      simp only [List.eraseIdx, List.map_cons, List.sum_cons, ih i e h]
      ring

theorem Cost_append_singleton (c : Cart) (x : Item) :
    (Cart.mk (c.items ++ [x])).Cost = wrapInt (c.Cost + x.price * x.quantity) := by
  rw [Cost_eq, Cost_eq]
  simp only [List.map_append, List.map_cons, List.map_nil, List.sum_append, List.sum_cons,
    List.sum_nil, add_zero]
  unfold wrapInt
  omega

theorem Cost_modify (c : Cart) (n : Int) (i : Nat) (e : Item) (h : c.items[i]? = some e) :
    (Cart.mk (c.items.modify (Item.addQuantity n) i)).Cost = wrapInt (c.Cost + e.price * n) := by
  rw [Cost_eq, Cost_eq, sum_map_modify _ _ _ _ _ h]
  simp only [Item.addQuantity]
  rw [wrapInt_add_mul_wrap]
  apply wrapInt_congr
  have e1 : (c.items.map (fun e => e.price * e.quantity)).sum - e.price * e.quantity +
      e.price * (e.quantity + n) =
      (c.items.map (fun e => e.price * e.quantity)).sum + e.price * n := by ring
  rw [e1]
  have h2 : wrapInt ((c.items.map (fun e => e.price * e.quantity)).sum) ≡
      (c.items.map (fun e => e.price * e.quantity)).sum [ZMOD 2 ^ 64] := wrapInt_emod _
  exact (h2.add_right (e.price * n)).symm

theorem Cost_eraseIdx (c : Cart) (i : Nat) (e : Item) (h : c.items[i]? = some e) :
    (Cart.mk (c.items.eraseIdx i)).Cost = wrapInt (c.Cost - e.price * e.quantity) := by
  rw [Cost_eq, Cost_eq, sum_map_eraseIdx (fun e => e.price * e.quantity) _ _ _ h]
  dsimp only
  unfold wrapInt
  omega

/-- C19 — the effect of `Add` on the total: `Add x` returns normally and the new cost is the
old cost plus `p * x.quantity` in `int` arithmetic (exactly so whenever that fits an
`int`), where `p` is the price of the entry `Find x.name` points to (the first entry of
that name), or `x.price` when it returns nil (no entry has that name); so when the name is
new or the stored price is `x.price` the cost grows by `x.Cost()`. -/
theorem Cart.cost_after_add (c : Cart) (x : Item) :
    ∃ (c' : Cart) (ptr : Option Nat) (i p : Int),
      c.Find x.name = some (ptr, i) ∧
      (∀ e, c.deref ptr = some e → e.name = x.name ∧ p = e.price) ∧
      (c.deref ptr = none → (∀ e ∈ c.items, e.name ≠ x.name) ∧ p = x.price) ∧
      c.Add x = some c' ∧
      c'.Cost = wrapInt (c.Cost + p * x.quantity) ∧
      (InIntRange (c.Cost + p * x.quantity) → c'.Cost = c.Cost + p * x.quantity) ∧
      (p = x.price → c'.Cost = wrapInt (c.Cost + x.Cost)) := by
  have key : ∀ (c' : Cart) (p : Int), c'.Cost = wrapInt (c.Cost + p * x.quantity) →
      (InIntRange (c.Cost + p * x.quantity) → c'.Cost = c.Cost + p * x.quantity) ∧
      (p = x.price → c'.Cost = wrapInt (c.Cost + x.Cost)) := by
    intro c' p hc
    refine ⟨fun hr => by rw [hc, wrapInt_of_inRange hr], ?_⟩
    intro hp
    rw [hc, hp, Item.Cost]
    unfold wrapInt
    omega
  by_cases h : ∃ e ∈ c.items, e.name = x.name
  · obtain ⟨k, hk, hf, ⟨e, he, hn⟩, _⟩ := Find_of_mem h
    have hc := Cost_modify c x.quantity k e he
    refine ⟨_, some k, (k : Int), e.price, hf, ?_, ?_, Add_of_mem hf, hc, key _ _ hc⟩
    · intro e' he'
      simp only [Cart.deref, he, Option.some.injEq] at he'
      rw [← he']
      exact ⟨hn, rfl⟩
    · intro hnone
      simp [Cart.deref, he] at hnone
  · have h' : ∀ e ∈ c.items, e.name ≠ x.name := fun e he hn => h ⟨e, he, hn⟩
    have hc := Cost_append_singleton c x
    refine ⟨_, none, -1, x.price, Find_of_not_mem h', ?_, fun _ => ⟨h', rfl⟩, Add_of_not_mem h', hc,
      key _ _ hc⟩
    intro e he
    simp [Cart.deref] at he

/-- C19 at the cart `[banana 7 x 1$]` (cost `7`) and the item `banana 2 x 5$`: the stored
price `1` counts, and the cost becomes `9`. -/
theorem Cart.cost_after_add_witness :
    ∃ c' : Cart, (Cart.mk [⟨"banana", 1, 7⟩]).Add ⟨"banana", 5, 2⟩ = some c' ∧ c'.Cost = 9 := by
  obtain ⟨c', ptr, i, p, hf, hp, _, ha, _, hr, _⟩ :=
    Cart.cost_after_add (Cart.mk [⟨"banana", 1, 7⟩]) ⟨"banana", 5, 2⟩
  have hfind : (Cart.mk [⟨"banana", 1, 7⟩]).Find "banana" = some (some 0, 0) := by decide
  rw [hfind] at hf
  cases hf
  have hp1 : p = 1 := (hp ⟨"banana", 1, 7⟩ (by decide)).2
  subst hp1
  exact ⟨c', ha, hr (by decide)⟩

/-- C20 — the effect of `Remove` on the total: when `Find n` points to the entry `e`,
`Remove n` returns normally and the new cost is the old cost minus `e.price * e.quantity`
in `int` arithmetic (the same as minus `e.Cost()`, and exactly the difference whenever
that fits an `int`); when no entry is named `n` the cost is unchanged. -/
theorem Cart.cost_after_remove (c : Cart) (n : String) :
    (∀ (ptr : Option Nat) (i : Int) (e : Item),
      c.Find n = some (ptr, i) → c.deref ptr = some e →
      ∃ c' : Cart, c.Remove n = some c' ∧
        c'.Cost = wrapInt (c.Cost - e.price * e.quantity) ∧
        c'.Cost = wrapInt (c.Cost - e.Cost) ∧
        (InIntRange (c.Cost - e.price * e.quantity) →
          c'.Cost = c.Cost - e.price * e.quantity)) ∧
    ((∀ e ∈ c.items, e.name ≠ n) → ∃ c' : Cart, c.Remove n = some c' ∧ c'.Cost = c.Cost) := by
  refine ⟨?_, fun h => ⟨c, Remove_of_not_mem h, rfl⟩⟩
  intro ptr i e hf hd
  obtain ⟨p, j, hf', h | h⟩ := Find_total c n
  · obtain ⟨k, rfl, rfl, hk⟩ := h
    rw [hf'] at hf
    cases hf
    have he : c.items[k]? = some e := by simpa [Cart.deref] using hd
    have hc := Cost_eraseIdx c k e he
    refine ⟨_, Remove_eq_eraseIdx hf' hk, hc, ?_, fun hr => by rw [hc, wrapInt_of_inRange hr]⟩
    rw [hc, Item.Cost]
    unfold wrapInt
    omega
  · obtain ⟨rfl, rfl⟩ := h
    rw [hf'] at hf
    cases hf
    simp [Cart.deref] at hd

/-- C20 at the cart `[banana 9 x 1$, eggs 3 x 2$]` (cost `15`): removing `"eggs"` leaves
cost `9`, removing `"ketchup"` leaves cost `15`. -/
theorem Cart.cost_after_remove_witness :
    (∃ c' : Cart, (Cart.mk [⟨"banana", 1, 9⟩, ⟨"eggs", 2, 3⟩]).Remove "eggs" = some c' ∧
      c'.Cost = 9) ∧
    (∃ c' : Cart, (Cart.mk [⟨"banana", 1, 9⟩, ⟨"eggs", 2, 3⟩]).Remove "ketchup" = some c' ∧
      c'.Cost = (Cart.mk [⟨"banana", 1, 9⟩, ⟨"eggs", 2, 3⟩]).Cost) := by
  refine ⟨?_, (Cart.cost_after_remove _ _).2 (by decide)⟩
  obtain ⟨c', hr, _, _, hc⟩ :=
    (Cart.cost_after_remove (Cart.mk [⟨"banana", 1, 9⟩, ⟨"eggs", 2, 3⟩]) "eggs").1
      (some 1) 1 ⟨"eggs", 2, 3⟩ (by decide) (by decide)
  exact ⟨c', hr, hc (by decide)⟩

/-! ## Names after `Add` and `Remove` -/

theorem mem_names_iff (c : Cart) (n : String) :
    n ∈ c.items.map Item.name ↔ ∃ e ∈ c.items, e.name = n := by
  simp [List.mem_map]

/-- The names after `Add x`: unchanged when `x.name` is present, extended by `x.name`
otherwise. -/
theorem Add_names (c : Cart) (x : Item) :
    ∃ c', c.Add x = some c' ∧
      c'.items.map Item.name =
        if x.name ∈ c.items.map Item.name then c.items.map Item.name
        else c.items.map Item.name ++ [x.name] := by
  by_cases h : x.name ∈ c.items.map Item.name
  · obtain ⟨i, _, hf, _, _⟩ := Find_of_mem ((mem_names_iff c x.name).mp h)
    refine ⟨_, Add_of_mem hf, ?_⟩
    rw [if_pos h]
    exact map_name_modify _ _ _
  · have h' : ∀ e ∈ c.items, e.name ≠ x.name :=
      fun e he hn => h ((mem_names_iff c x.name).mpr ⟨e, he, hn⟩)
    refine ⟨_, Add_of_not_mem h', ?_⟩
    rw [if_neg h]
    simp

theorem mem_eraseIdx_of_nodup {l : List String} (hl : l.Nodup) {k : Nat} {n : String}
    (hk : l[k]? = some n) (m : String) : m ∈ l.eraseIdx k ↔ m ∈ l ∧ m ≠ n := by
  constructor
  · intro hm
    refine ⟨(List.eraseIdx_sublist l k).subset hm, ?_⟩
    rintro rfl
    exact not_mem_eraseIdx_of_nodup hl hk hm
  · rintro ⟨hm, hne⟩
    rw [List.mem_eraseIdx_iff_getElem?]
    obtain ⟨i, hi⟩ := List.getElem?_of_mem hm
    refine ⟨i, ?_, hi⟩
    rintro rfl
    rw [hk] at hi
    cases hi
    exact hne rfl

/-- The names after `Remove n` on a cart with distinct names: the old names but `n`. -/
theorem Remove_names {c : Cart} (hu : c.UniqueNames) (n : String) :
    ∃ c', c.Remove n = some c' ∧ c'.UniqueNames ∧
      ∀ m, m ∈ c'.items.map Item.name ↔ m ∈ c.items.map Item.name ∧ m ≠ n := by
  by_cases h : ∃ e ∈ c.items, e.name = n
  · obtain ⟨k, hk, hf, ⟨e, he, hn⟩, _⟩ := Find_of_mem h
    have hnames : (c.items.map Item.name)[k]? = some n := by
      simp [List.getElem?_map, he, hn]
    refine ⟨_, Remove_eq_eraseIdx hf hk, ?_, ?_⟩
    · unfold Cart.UniqueNames at hu ⊢
      rw [map_eraseIdx_name]
      exact hu.eraseIdx k
    · intro m
      rw [map_eraseIdx_name]
      exact mem_eraseIdx_of_nodup hu hnames m
  · have h' : ∀ e ∈ c.items, e.name ≠ n := fun e he hn => h ⟨e, he, hn⟩
    refine ⟨c, Remove_of_not_mem h', hu, ?_⟩
    intro m
    constructor
    · intro hm
      refine ⟨hm, ?_⟩
      rintro rfl
      exact h ((mem_names_iff c m).mp hm)
    · exact fun hm => hm.1

theorem run_liveNames :
    ∀ (ops : List Op) (c : Cart), c.UniqueNames →
      ∃ c', c.run ops = some c' ∧ c'.UniqueNames ∧
        (c'.items.map Item.name).toFinset =
          ops.foldl namesStep (c.items.map Item.name).toFinset := by
  intro ops
  induction ops with
  | nil => intro c hu; exact ⟨c, rfl, hu, rfl⟩
  | cons op ops ih =>
    intro c hu
    cases op with
    | add item =>
      obtain ⟨c₁, h₁, hn₁⟩ := Add_names c item
      obtain ⟨c₂, h₂, hu₂⟩ := uniqueNames_Add hu item
      rw [h₁] at h₂
      cases h₂
      obtain ⟨c', hr, hu', hs⟩ := ih c₁ hu₂
      refine ⟨c', by simp [Cart.run, Cart.step, h₁, hr], hu', ?_⟩
      rw [hs, List.foldl_cons]
      congr 1
      rw [hn₁]
      ext m
      split <;> rename_i hmem
      · simp only [namesStep, Finset.mem_insert, List.mem_toFinset]
        constructor
        · exact fun h => Or.inr h
        · rintro (rfl | h)
          · exact hmem
          · exact h
      · simp only [namesStep, Finset.mem_insert, List.mem_toFinset, List.mem_append,
          List.mem_singleton]
        tauto
    | remove name =>
      obtain ⟨c₁, h₁, hu₁, hn₁⟩ := Remove_names hu name
      obtain ⟨c', hr, hu', hs⟩ := ih c₁ hu₁
      refine ⟨c', by simp [Cart.run, Cart.step, h₁, hr], hu', ?_⟩
      rw [hs, List.foldl_cons]
      congr 1
      ext m
      simp only [namesStep, Finset.mem_erase, List.mem_toFinset, hn₁ m]
      tauto

/-! ## Distinct live names -/

/-- C12 — `Size` counts distinct live names: every sequence of `Add` and `Remove` calls on
the empty cart runs to the end, and the final `Size` is the number of elements of the set
obtained by running the same sequence on a set of names (`Add(X)` inserts `X.name`,
`Remove(n)` deletes `n`), in which quantities play no part. -/
theorem Cart.size_counts_live_names (ops : List Op) :
    ∃ c : Cart, Cart.empty.run ops = some c ∧ c.Size = ((liveNames ops).card : Int) := by
  obtain ⟨c, hr, hu, hs⟩ := run_liveNames ops Cart.empty (by simp [Cart.UniqueNames, Cart.empty])
  refine ⟨c, hr, ?_⟩
  have h0 : (Cart.empty.items.map Item.name).toFinset = (∅ : Finset String) := rfl
  rw [h0] at hs
  unfold liveNames
  rw [← hs, List.toFinset_card_of_nodup hu]
  simp [Cart.Size]

/-! ## Remove then add, and two adds -/

theorem no_name_after_erase {c : Cart} (hu : c.UniqueNames) {k : Nat} {e : Item}
    (he : c.items[k]? = some e) : ∀ e' ∈ c.items.eraseIdx k, e'.name ≠ e.name := by
  intro e' he' hn
  have hnames : (c.items.map Item.name)[k]? = some e.name := by
    simp [List.getElem?_map, he]
  have := not_mem_eraseIdx_of_nodup hu hnames
  rw [← map_eraseIdx_name] at this
  exact this (List.mem_map.mpr ⟨e', he', hn⟩)

theorem find?_of_unique {c : Cart} (hu : c.UniqueNames) {a : Item} (ha : a ∈ c.items) :
    c.items.find? (fun e => decide (e.name = a.name)) = some a := by
  cases hfind : c.items.find? (fun e => decide (e.name = a.name)) with
  | none =>
    rw [List.find?_eq_none] at hfind
    exact absurd (by simp) (hfind a ha)
  | some e =>
    have hmem := List.mem_of_find?_eq_some hfind
    have hname : e.name = a.name := by simpa using List.find?_some hfind
    rw [List.inj_on_of_nodup_map hu hmem ha hname]

/-- C13 — remove then re-add is neutral: on a cart with pairwise distinct names, for a
stored entry `a`, `Remove a.name` followed by `Add a` returns normally with the same
`Size`, the same `Cost`, and for every name the same `Find` outcome (a pointer to an equal
entry, or nil as before); `a` has moved to the end of the list. -/
theorem Cart.remove_then_add (c : Cart) (a : Item) (hu : c.UniqueNames) (ha : a ∈ c.items) :
    ∃ c₁ c₂ : Cart,
      c.Remove a.name = some c₁ ∧ c₁.Add a = some c₂ ∧
      c₂.Size = c.Size ∧ c₂.Cost = c.Cost ∧
      (∀ n : String, ∃ (p p' : Option Nat) (i i' : Int),
        c.Find n = some (p, i) ∧ c₂.Find n = some (p', i') ∧ c₂.deref p' = c.deref p) ∧
      ∃ k : Nat, c.items[k]? = some a ∧ c₂.items = c.items.eraseIdx k ++ [a] := by
  obtain ⟨k, hk, hf, ⟨e, he, hn⟩, _⟩ := Find_of_mem ⟨a, ha, rfl⟩
  have hea : e = a := List.inj_on_of_nodup_map hu (List.getElem?_mem he) ha hn
  subst hea
  have hgone := no_name_after_erase hu he
  have hadd : (Cart.mk (c.items.eraseIdx k)).Add e = some (Cart.mk (c.items.eraseIdx k ++ [e])) :=
    Add_of_not_mem hgone
  refine ⟨_, _, Remove_eq_eraseIdx hf hk, hadd, ?_, ?_, ?_, k, he, rfl⟩
  · simp only [Cart.Size, List.length_append, List.length_eraseIdx, if_pos hk,
      List.length_singleton]
    omega
  · rw [Cost_append_singleton, Cost_eraseIdx c k e he]
    have hin := wrapInt_inRange ((c.items.map (fun e => e.price * e.quantity)).sum)
    rw [← Cost_eq] at hin
    unfold InIntRange at hin
    unfold wrapInt
    omega
  · intro n
    obtain ⟨p, i, hfp, hd⟩ := deref_Find c n
    obtain ⟨p', i', hfp', hd'⟩ := deref_Find (Cart.mk (c.items.eraseIdx k ++ [e])) n
    refine ⟨p, p', i, i', hfp, hfp', ?_⟩
    rw [hd, hd']
    simp only [List.find?_append]
    by_cases hne : e.name = n
    · subst hne
      have h1 : (c.items.eraseIdx k).find? (fun x => decide (x.name = e.name)) = none := by
        rw [List.find?_eq_none]
        intro x hx
        simpa using hgone x hx
      rw [h1, find?_of_unique hu ha]
      simp
    · have h1 : (c.items.eraseIdx k).find? (fun x => decide (x.name = n)) =
          c.items.find? (fun x => decide (x.name = n)) := by
        apply find?_eraseIdx_of_not
        intro e' he'
        rw [he] at he'
        cases he'
        simpa using hne
      rw [h1]
      simp [List.find?_cons, hne]

/-- C13 at the cart `[banana 9 x 1$, eggs 3 x 2$]` and its entry `banana 9 x 1$`. -/
theorem Cart.remove_then_add_witness :
    (Cart.mk [⟨"banana", 1, 9⟩, ⟨"eggs", 2, 3⟩]).UniqueNames ∧
    (Item.mk "banana" 1 9) ∈ (Cart.mk [⟨"banana", 1, 9⟩, ⟨"eggs", 2, 3⟩]).items ∧
    ∃ c₁ c₂ : Cart,
      (Cart.mk [⟨"banana", 1, 9⟩, ⟨"eggs", 2, 3⟩]).Remove (Item.mk "banana" 1 9).name = some c₁ ∧
      c₁.Add (Item.mk "banana" 1 9) = some c₂ ∧
      c₂.Size = (Cart.mk [⟨"banana", 1, 9⟩, ⟨"eggs", 2, 3⟩]).Size ∧
      c₂.Cost = (Cart.mk [⟨"banana", 1, 9⟩, ⟨"eggs", 2, 3⟩]).Cost ∧
      (∀ n : String, ∃ (p p' : Option Nat) (i i' : Int),
        (Cart.mk [⟨"banana", 1, 9⟩, ⟨"eggs", 2, 3⟩]).Find n = some (p, i) ∧
        c₂.Find n = some (p', i') ∧
        c₂.deref p' = (Cart.mk [⟨"banana", 1, 9⟩, ⟨"eggs", 2, 3⟩]).deref p) ∧
      ∃ k : Nat, (Cart.mk [⟨"banana", 1, 9⟩, ⟨"eggs", 2, 3⟩]).items[k]? = some (Item.mk "banana" 1 9) ∧
        c₂.items = (Cart.mk [⟨"banana", 1, 9⟩, ⟨"eggs", 2, 3⟩]).items.eraseIdx k ++
          [Item.mk "banana" 1 9] :=
  ⟨by decide, by decide, Cart.remove_then_add _ _ (by decide) (by decide)⟩

/-- C14, as stated, at the cart `[milk 1 x 4$]` with the items `banana 7 x 1$` and
`eggs 3 x 2$`: the names differ, both `Add` calls return, both names are found, and the
size is `3`, not `2`. -/
theorem Cart.add_two_names_size_counterexample :
    (Item.mk "banana" 1 7).name ≠ (Item.mk "eggs" 2 3).name ∧
    (Cart.mk [⟨"milk", 4, 1⟩]).Add ⟨"banana", 1, 7⟩ =
      some (Cart.mk [⟨"milk", 4, 1⟩, ⟨"banana", 1, 7⟩]) ∧
    (Cart.mk [⟨"milk", 4, 1⟩, ⟨"banana", 1, 7⟩]).Add ⟨"eggs", 2, 3⟩ =
      some (Cart.mk [⟨"milk", 4, 1⟩, ⟨"banana", 1, 7⟩, ⟨"eggs", 2, 3⟩]) ∧
    (Cart.mk [⟨"milk", 4, 1⟩, ⟨"banana", 1, 7⟩, ⟨"eggs", 2, 3⟩]).Find "banana" =
      some (some 1, 1) ∧
    (Cart.mk [⟨"milk", 4, 1⟩, ⟨"banana", 1, 7⟩, ⟨"eggs", 2, 3⟩]).Find "eggs" =
      some (some 2, 2) ∧
    (Cart.mk [⟨"milk", 4, 1⟩, ⟨"banana", 1, 7⟩, ⟨"eggs", 2, 3⟩]).Size = 3 ∧
    (Cart.mk [⟨"milk", 4, 1⟩, ⟨"banana", 1, 7⟩, ⟨"eggs", 2, 3⟩]).Size ≠ 2 := by
  decide

/-- C14, amended — for all carts and items `a`, `b` with different names: `Add a` then
`Add b` return normally, afterwards `Find a.name` and `Find b.name` both return a non-nil
pointer to an entry of that name with a non-negative index, and the size is the old size
plus one for each of the two names that was not present before; so it is `2` when the cart
was empty before the two calls. -/
theorem Cart.add_two_names (c : Cart) (a b : Item) (hab : a.name ≠ b.name) :
    ∃ c₁ c₂ : Cart,
      c.Add a = some c₁ ∧ c₁.Add b = some c₂ ∧
      (∃ (i : Nat) (e : Item), c₂.Find a.name = some (some i, (i : Int)) ∧
        (0 : Int) ≤ (i : Int) ∧ c₂.deref (some i) = some e ∧ e.name = a.name) ∧
      (∃ (j : Nat) (e : Item), c₂.Find b.name = some (some j, (j : Int)) ∧
        (0 : Int) ≤ (j : Int) ∧ c₂.deref (some j) = some e ∧ e.name = b.name) ∧
      c₂.Size = c.Size + (if a.name ∈ c.items.map Item.name then 0 else 1) +
        (if b.name ∈ c.items.map Item.name then 0 else 1) ∧
      (c = Cart.empty → c₂.Size = 2) := by
  obtain ⟨c₁, h₁, hn₁⟩ := Add_names c a
  obtain ⟨c₂, h₂, hn₂⟩ := Add_names c₁ b
  have found : ∀ n : String, n ∈ c₂.items.map Item.name →
      ∃ (i : Nat) (e : Item), c₂.Find n = some (some i, (i : Int)) ∧
        (0 : Int) ≤ (i : Int) ∧ c₂.deref (some i) = some e ∧ e.name = n := by
    intro n hn
    obtain ⟨i, _, hf, ⟨e, he, hne⟩, _⟩ := Find_of_mem ((mem_names_iff c₂ n).mp hn)
    exact ⟨i, e, hf, Int.ofNat_nonneg i, he, hne⟩
  have ha₁ : a.name ∈ c₁.items.map Item.name := by
    rw [hn₁]; split <;> simp_all
  have hb₁ : b.name ∈ c₁.items.map Item.name ↔ b.name ∈ c.items.map Item.name := by
    rw [hn₁]
    split
    · rfl
    · simp only [List.mem_append, List.mem_singleton]
      constructor
      · rintro (h | h)
        · exact h
        · exact absurd h.symm hab
      · exact fun h => Or.inl h
  have hsize : c₂.Size = c.Size + (if a.name ∈ c.items.map Item.name then 0 else 1) +
      (if b.name ∈ c.items.map Item.name then 0 else 1) := by
    have hl₂ : c₂.items.length = (c₂.items.map Item.name).length := by simp
    have hl₁ : c₁.items.length = (c₁.items.map Item.name).length := by simp
    have hl : c.items.length = (c.items.map Item.name).length := by simp
    simp only [Cart.Size]
    rw [hl₂, hn₂, hl, ← hl]
    by_cases hb : b.name ∈ c.items.map Item.name
    · rw [if_pos (hb₁.mpr hb), if_pos hb, ← hl₁, hl₁, hn₁]
      split <;> simp
    · rw [if_neg (fun h => hb (hb₁.mp h)), if_neg hb, List.length_append, ← hl₁, hl₁, hn₁]
      split <;> simp
  refine ⟨c₁, c₂, h₁, h₂, found a.name ?_, found b.name ?_, hsize, ?_⟩
  · rw [hn₂]; split
    · exact ha₁
    · exact List.mem_append_left _ ha₁
  · rw [hn₂]; split
    · assumption
    · simp
  · intro hc
    rw [hsize, hc]
    simp [Cart.empty, Cart.Size]

/-- C14, amended, at the empty cart with the items `banana 7 x 1$` and `eggs 3 x 2$`. -/
theorem Cart.add_two_names_witness :
    (Item.mk "banana" 1 7).name ≠ (Item.mk "eggs" 2 3).name ∧
    ∃ c₁ c₂ : Cart,
      Cart.empty.Add (Item.mk "banana" 1 7) = some c₁ ∧ c₁.Add (Item.mk "eggs" 2 3) = some c₂ ∧
      (∃ (i : Nat) (e : Item), c₂.Find (Item.mk "banana" 1 7).name = some (some i, (i : Int)) ∧
        (0 : Int) ≤ (i : Int) ∧ c₂.deref (some i) = some e ∧ e.name = (Item.mk "banana" 1 7).name) ∧
      (∃ (j : Nat) (e : Item), c₂.Find (Item.mk "eggs" 2 3).name = some (some j, (j : Int)) ∧
        (0 : Int) ≤ (j : Int) ∧ c₂.deref (some j) = some e ∧ e.name = (Item.mk "eggs" 2 3).name) ∧
      c₂.Size = Cart.empty.Size +
        (if (Item.mk "banana" 1 7).name ∈ Cart.empty.items.map Item.name then 0 else 1) +
        (if (Item.mk "eggs" 2 3).name ∈ Cart.empty.items.map Item.name then 0 else 1) ∧
      (Cart.empty = Cart.empty → c₂.Size = 2) :=
  ⟨by decide, Cart.add_two_names _ _ _ (by decide)⟩

/-! ## String forms -/

theorem intercalate_go_eq (l : List String) :
    ∀ acc : String, String.intercalate.go acc " " l = acc ++ formatElems false l := by
  induction l with
  | nil => intro acc; simp [String.intercalate.go, formatElems]
  | cons e l ih =>
    intro acc
    simp only [String.intercalate.go, ih, formatElems, String.append_assoc]

/-- The loop of `fmt` over a slice joins the elements with single spaces. -/
theorem formatElems_eq_intercalate (l : List String) :
    formatElems true l = " ".intercalate l := by
  cases l with
  | nil => rfl
  | cons e l => simp only [formatElems, String.intercalate, intercalate_go_eq]

/-- C15 — `Item.String` has the fixed format: the name, one space, the decimal rendering of
the quantity, the three characters ` x `, the decimal rendering of the price, then `$`;
the item `banana`, price `1`, quantity `7` renders as `banana 7 x 1$`. -/
theorem Item.string_fixed_format (i : Item) :
    i.string = i.name ++ " " ++ formatInt i.quantity ++ " x " ++ formatInt i.price ++ "$" ∧
    (Item.mk "banana" 1 7).string = "banana 7 x 1$" := by
  refine ⟨?_, by decide⟩
  have hfmt : ("%v %v x %v$" : String).data =
      ['%', 'v', ' ', '%', 'v', ' ', 'x', ' ', '%', 'v', '$'] := by decide
  simp only [Item.string, Sprintf, hfmt, sprintfLoop, FmtArg.format]
  apply String.ext
  simp [String.data_append]

/-- C17 — `Cart.String` renders the entries as a bracketed list: `[`, then the `Item.String`
forms of the entries in insertion order joined by single spaces, then `]`; the empty cart
renders as `[]`, and the cart of `banana 7 x 1$` and `eggs 3 x 2$` as
`[banana 7 x 1$ eggs 3 x 2$]`. -/
theorem Cart.string_bracketed_list (c : Cart) :
    c.string = "[" ++ " ".intercalate (c.items.map Item.string) ++ "]" ∧
    Cart.empty.string = "[]" ∧
    (Cart.mk [⟨"banana", 1, 7⟩, ⟨"eggs", 2, 3⟩]).string = "[banana 7 x 1$ eggs 3 x 2$]" := by
  refine ⟨?_, by decide, by decide⟩
  have hfmt : ("%v" : String).data = ['%', 'v'] := by decide
  simp only [Cart.string, Sprintf, hfmt, sprintfLoop, FmtArg.format, formatElems_eq_intercalate,
    String.append_empty]
end Groceries
